import Mathlib

/-!
Verification of the obligation-extraction pipeline
(`app/services/chunker.py` and `app/services/obligation_extractor.py`).

Modelling conventions (a shallow embedding of the Python source):

* A Python `str` is modelled as `PyStr := List Nat`, the list of its character
  code points.  All inputs exercised by the pipeline are ASCII, so the
  ASCII-only case distinctions of `toLowerN` / `toUpperN` coincide with
  Python's `str.lower` / `str.upper` / `str.title` on the strings involved.
* `str.strip` is `pyStrip` (drop leading and trailing whitespace, where
  whitespace is the ASCII set
  space/tab/newline/carriage-return/vertical-tab/form-feed that
  `str.strip()` removes on ASCII text).
* Python's `hash` of a normalized obligation text is modelled by the
  normalized text itself (an injective "hash"): the tracker stores the
  normalized strings.  None of the verified properties depend on hash
  collisions, which are a seeded implementation artifact of CPython.
* The regex `^(?:Section|SECTION|Art\.|ARTICLE)\s*([\d\.]+)\s*[:\-]?\s*(.+)?$`
  used by `extract_section_info` is embedded as a maximal-munch scanner;
  because every optional tail element of the pattern can also match the empty
  string, maximal munch agrees with the backtracking regex semantics (the
  dotted-numeral group is anchored by the mandatory-label prefix and the
  whole-line anchoring reduces to the final no-newline check).
-/

/-- Python strings as lists of character code points. -/
abbrev PyStr := List Nat

/-- Code points of a Lean string literal, used to write concrete inputs. -/
def pyOf (s : String) : PyStr := s.data.map Char.toNat

/-- ASCII whitespace recognized by `str.strip()` / regex `\s` on ASCII text. -/
def isSpaceB (n : Nat) : Bool := n = 32 || n = 9 || n = 10 || n = 13 || n = 11 || n = 12

/-- Characters matched by the regex class `[\d\.]`: digits and the dot. -/
def isDigitDotB (n : Nat) : Bool := (48 ≤ n && n ≤ 57) || n = 46

/-- ASCII letters: the cased characters relevant for `str.title()`. -/
def isAlphaB (n : Nat) : Bool := (65 ≤ n && n ≤ 90) || (97 ≤ n && n ≤ 122)

/-- ASCII `str.lower` on a single code point. -/
def toLowerN (n : Nat) : Nat := if 65 ≤ n ∧ n ≤ 90 then n + 32 else n

/-- ASCII `str.upper` on a single code point. -/
def toUpperN (n : Nat) : Nat := if 97 ≤ n ∧ n ≤ 122 then n - 32 else n

/-- `str.lower()`. -/
def pyLower (l : PyStr) : PyStr := l.map toLowerN

/-- Left part of `str.strip()`. -/
def lstripP (l : PyStr) : PyStr := l.dropWhile isSpaceB

/-- Right part of `str.strip()`. -/
def rstripP (l : PyStr) : PyStr := (l.reverse.dropWhile isSpaceB).reverse

/-- `str.strip()`: drop leading and trailing ASCII whitespace. -/
def pyStrip (l : PyStr) : PyStr := lstripP (rstripP l)

/-- Worker for `str.title()`: `prevCased` records whether the previous
character was a cased (alphabetic) character, exactly as CPython does. -/
def pyTitleGo (prevCased : Bool) : PyStr → PyStr
  | [] => []
  | c :: cs =>
    if isAlphaB c then
      (if prevCased then toLowerN c else toUpperN c) :: pyTitleGo true cs
    else
      c :: pyTitleGo false cs

/-- `str.title()` (ASCII): uppercase each letter that follows a non-letter,
lowercase every other letter. -/
def pyTitle (l : PyStr) : PyStr := pyTitleGo false l

/-- Code points of the decimal representation of a natural number, as used by
Python's f-string interpolation of an `int`. -/
def natCodes (n : Nat) : PyStr := (Nat.repr n).data.map Char.toNat

/-- `page.split("\n")`: split at every newline, keeping empty pieces. -/
def splitNL : PyStr → List PyStr
  | [] => [[]]
  | c :: cs =>
    if c = 10 then [] :: splitNL cs
    else
      match splitNL cs with
      | [] => [[c]]
      | h :: t => (c :: h) :: t

/-! ### The chunker (`app/services/chunker.py`) -/

/-- The section state carried by `chunk_text` (`current_section`), and also
the dict returned by `extract_section_info` (keys `section_number` and
`section_title`). -/
structure SecInfo where
  number : PyStr
  title : PyStr
deriving DecidableEq, Repr

/-- The four literal alternatives of the label group
`(?:Section|SECTION|Art\.|ARTICLE)` of the section-header regex. -/
def headerLabels : List PyStr := [pyOf "Section", pyOf "SECTION", pyOf "Art.", pyOf "ARTICLE"]

/-- Match the mandatory label alternation at the start of the line; returns
the remainder after the label.  No string starts with two distinct labels, so
the alternation order is immaterial. -/
def stripLabel (s : PyStr) : Option PyStr :=
  if (pyOf "Section").isPrefixOf s then some (s.drop 7)
  else if (pyOf "SECTION").isPrefixOf s then some (s.drop 7)
  else if (pyOf "Art.").isPrefixOf s then some (s.drop 4)
  else if (pyOf "ARTICLE").isPrefixOf s then some (s.drop 7)
  else none

/-- The optional separator `[:\-]?`: drop one leading `:` or `-` if present. -/
def dropSep (l : PyStr) : PyStr :=
  match l with
  | c :: t => if c = 58 ∨ c = 45 then t else l
  | [] => []

/-- The part of the section-header regex after the label:
`\s*([\d\.]+)\s*[:\-]?\s*(.+)?$`.  Returns the dotted-numeral capture and the
title capture (the title group is `[]` when the optional group is skipped).
The final check rejects a remaining newline, which `.` cannot match and which
cannot be absorbed by `$` on a stripped line. -/
def matchAfterLabel (r : PyStr) : Option (PyStr × PyStr) :=
  let r1 := r.dropWhile isSpaceB
  let num := r1.takeWhile isDigitDotB
  if num = [] then none
  else
    let r4 := ((dropSep ((r1.dropWhile isDigitDotB).dropWhile isSpaceB)).dropWhile isSpaceB)
    if 10 ∈ r4 then none else some (num, r4)

/-- `extract_section_info(text)`: strip the line, match the section-header
regex, and return the dict with the numeral and the stripped title. -/
def extractSectionInfo (text : PyStr) : Option SecInfo :=
  let s := pyStrip text
  match stripLabel s with
  | none => none
  | some rest =>
    match matchAfterLabel rest with
    | none => none
    | some (num, title) => some ⟨num, pyStrip title⟩

/-- One chunk dict produced by `chunk_text`. -/
structure Chunk where
  text : PyStr
  section_number : PyStr
  section_title : PyStr
  page_number : Nat
  context : PyStr
deriving DecidableEq, Repr

/-- The f-string `f"Page {current_page}, Section {number}: {title}"`. -/
def mkContext (page : Nat) (sec : SecInfo) : PyStr :=
  pyOf "Page " ++ natCodes page ++ pyOf ", Section " ++ sec.number ++ pyOf ": " ++ sec.title

/-- The loop state of `chunk_text`. -/
structure ChunkState where
  chunks : List Chunk
  current_chunk : PyStr
  current_section : SecInfo
  current_page : Nat
deriving DecidableEq, Repr

/-- The chunk flushed from a state, given the (already updated) section. -/
def flushChunk (st : ChunkState) (sec : SecInfo) : Chunk :=
  { text := pyStrip st.current_chunk
    section_number := sec.number
    section_title := sec.title
    page_number := st.current_page
    context := mkContext st.current_page sec }

/-- The body of the paragraph loop of `chunk_text`: update the active section
if the paragraph is a header, then either append the paragraph (plus a
newline) to the buffer or flush the buffer as a chunk and reseed the buffer
with the paragraph, recording the overflow page. -/
def stepPara (mt : Nat) (st : ChunkState) (pp : Nat × PyStr) : ChunkState :=
  let sec : SecInfo :=
    match extractSectionInfo pp.2 with
    | some info => info
    | none => st.current_section
  if st.current_chunk.length + pp.2.length < mt * 4 then
    { st with current_chunk := st.current_chunk ++ pp.2 ++ [10], current_section := sec }
  else
    { chunks :=
        st.chunks ++ (if pyStrip st.current_chunk = [] then [] else [flushChunk st sec])
      current_chunk := pp.2 ++ [10]
      current_section := sec
      current_page := pp.1 }

/-- All paragraphs of the document, tagged with their 1-indexed page number:
`enumerate(pages, 1)` together with the per-page split into non-blank lines. -/
def taggedParas (pages : List PyStr) : List (Nat × PyStr) :=
  (List.enumFrom 1 pages).flatMap
    (fun pr => ((splitNL pr.2).filter (fun p => !(pyStrip p).isEmpty)).map (fun p => (pr.1, p)))

/-- The initial state of `chunk_text`. -/
def initChunkState : ChunkState := ⟨[], [], ⟨[], []⟩, 0⟩

/-- `chunk_text(pages, max_tokens)`: fold the paragraph loop over all tagged
paragraphs, then flush the final non-blank buffer. -/
def chunkText (pages : List PyStr) (mt : Nat) : List Chunk :=
  let st := (taggedParas pages).foldl (stepPara mt) initChunkState
  st.chunks ++ (if pyStrip st.current_chunk = [] then [] else [flushChunk st st.current_section])

example : chunkText [pyOf "Hello"] 800 =
    [⟨pyOf "Hello", [], [], 0, pyOf "Page 0, Section : "⟩] := by decide

example : extractSectionInfo (pyOf "Section 2.1: Payment Terms") =
    some ⟨pyOf "2.1", pyOf "Payment Terms"⟩ := by decide

example : extractSectionInfo (pyOf "Article 1: Test") = none := by decide

example : extractSectionInfo (pyOf "ARTICLE 4 - Liability") =
    some ⟨pyOf "4", pyOf "Liability"⟩ := by decide

/-! ### The obligation extractor (`app/services/obligation_extractor.py`) -/

/-- One obligation dict `{obligation_text, deadline, section}`. -/
structure Obligation where
  obligation_text : PyStr
  deadline : Option PyStr
  «section» : PyStr
deriving DecidableEq, Repr

/-- One party dict of a per-chunk LLM result.  `obligations = none` models a
party dict without an `"obligations"` key (the code guards with
`if "obligations" in party`). -/
structure RawParty where
  name : PyStr
  obligations : Option (List Obligation)
deriving DecidableEq, Repr

/-- A parsed per-chunk LLM result.  `parties = none` models a JSON object
without a `"parties"` key (the code guards with `if "parties" in result`). -/
structure RawResult where
  parties : Option (List RawParty)
deriving DecidableEq, Repr

/-- `ObligationTracker`: the run-scoped deduplication and canonicalization
state.  `seen` holds the normalized obligation texts (standing in for their
hashes, see the header comment) and `partyNames` is the insertion-ordered
dict from normalized key to canonical name. -/
structure Tracker where
  seen : List PyStr
  partyNames : List (PyStr × PyStr)
deriving DecidableEq, Repr

/-- A fresh tracker, as built once per extraction run. -/
def freshTracker : Tracker := ⟨[], []⟩

/-- Lookup in the insertion-ordered dict. -/
def lookupA (m : List (PyStr × PyStr)) (k : PyStr) : Option PyStr :=
  match m with
  | [] => none
  | (k', v) :: t => if k' = k then some v else lookupA t k

/-- `ObligationTracker.is_duplicate`: normalize with `lower().strip()`, return
`True` and leave the state unchanged if seen, else record and return `False`. -/
def isDuplicate (tr : Tracker) (text : PyStr) : Bool × Tracker :=
  let h := pyStrip (pyLower text)
  if h ∈ tr.seen then (true, tr) else (false, { tr with seen := tr.seen ++ [h] })

/-- `ObligationTracker.standardize_party_name`: key with `lower().strip()`;
on a fresh key store the Title-Case form of the name, then return the stored
canonical form. -/
def standardize (tr : Tracker) (name : PyStr) : PyStr × Tracker :=
  let key := pyStrip (pyLower name)
  match lookupA tr.partyNames key with
  | some v => (v, tr)
  | none => (pyTitle name, { tr with partyNames := tr.partyNames ++ [(key, pyTitle name)] })

/-- One external LLM call outcome for one attempt: either an exception
(transport failure etc.) or a response.  A response carries the raw content
string (checked against the `"null"` sentinel) and the result of
`json.loads` plus schema access on it (`none` models malformed JSON or a
schema mismatch, both of which raise inside the `try`). -/
inductive LLMCall where
  | raiseExc : LLMCall
  | reply (content : PyStr) (parsed : Option RawResult) : LLMCall
deriving DecidableEq, Repr

/-- The per-chunk LLM behaviour: the outcome of each attempt, indexed from 0. -/
abbrev Oracle := Nat → LLMCall

/-- Events of one `process_chunk` run: an LLM invocation, or an
`asyncio.sleep` backoff with its duration in milliseconds. -/
inductive PEvent where
  | llmCall : PEvent
  | sleepMs (ms : Nat) : PEvent
deriving DecidableEq, Repr

/-- The per-party, per-obligation processing of a structured result inside
`process_chunk`: standardize each party name and keep each non-duplicate
obligation, stamping its `section` with the chunk's section number. -/
def processParties (c : Chunk) (r : RawResult) (tr : Tracker) : RawResult × Tracker :=
  match r.parties with
  | none => (r, tr)
  | some ps =>
    let step := fun (acc : List RawParty × Tracker) (party : RawParty) =>
      let (nm, t1) := standardize acc.2 party.name
      match party.obligations with
      | none => (acc.1 ++ [{ party with name := nm }], t1)
      | some obs =>
        let inner := fun (oacc : List Obligation × Tracker) (ob : Obligation) =>
          let (dup, t') := isDuplicate oacc.2 ob.obligation_text
          (if dup then oacc.1 else oacc.1 ++ [{ ob with «section» := c.section_number }], t')
        let (obs', t2) := obs.foldl inner ([], t1)
        (acc.1 ++ [⟨nm, some obs'⟩], t2)
    let (ps', tr') := ps.foldl step ([], tr)
    (⟨some ps'⟩, tr')

/-- `MAX_RETRIES`. -/
def MAX_RETRIES : Nat := 3

/-- `BATCH_SIZE`. -/
def BATCH_SIZE : Nat := 5

/-- The attempt loop of `process_chunk`, with `remaining` attempts left and
`attempt` the index of the next attempt.  On an exception the code sleeps one
second (also after the final attempt) and retries; on a `"null"` content
(checked as `content.strip().lower()`) the `try` body simply ends, so the
loop proceeds to the next attempt with no sleep; on a parsed result the
tracker is applied and the processed result returned. -/
def processChunkGo (orc : Oracle) (c : Chunk) :
    Nat → Nat → Tracker → Option RawResult × Tracker × List PEvent
  | _, 0, tr => (none, tr, [])
  | attempt, remaining + 1, tr =>
    match orc attempt with
    | .raiseExc =>
      let (res, tr', evs) := processChunkGo orc c (attempt + 1) remaining tr
      (res, tr', .llmCall :: .sleepMs 1000 :: evs)
    | .reply content parsed =>
      if pyLower (pyStrip content) = pyOf "null" then
        let (res, tr', evs) := processChunkGo orc c (attempt + 1) remaining tr
        (res, tr', .llmCall :: evs)
      else
        match parsed with
        | none =>
          let (res, tr', evs) := processChunkGo orc c (attempt + 1) remaining tr
          (res, tr', .llmCall :: .sleepMs 1000 :: evs)
        | some r =>
          let (r', tr') := processParties c r tr
          (some r', tr', [.llmCall])

/-- `process_chunk(chunk, tracker)` driven by the per-attempt LLM behaviour:
returns the per-chunk result (`none` after retry exhaustion), the updated
shared tracker, and the event trace. -/
def processChunk (orc : Oracle) (c : Chunk) (tr : Tracker) :
    Option RawResult × Tracker × List PEvent :=
  processChunkGo orc c 0 MAX_RETRIES tr

/-- A chunk bundled with the LLM behaviour it will observe: the unit of work
handed to the batch orchestrator. -/
abbrev Item := Chunk × Oracle

/-- The batch slicing `chunks[i:i+BATCH_SIZE]` of the orchestrator loop,
written as structural recursion taking `BATCH_SIZE = 5` elements at a time
(the final short batch cases spell out `chunks[i:i+5]` at the tail). -/
def batchList : List α → List (List α)
  | [] => []
  | [a] => [[a]]
  | [a, b] => [[a, b]]
  | [a, b, c] => [[a, b, c]]
  | [a, b, c, d] => [[a, b, c, d]]
  | a :: b :: c :: d :: e :: rest => [a, b, c, d, e] :: batchList rest

/-- Orchestrator-level events: a chunk task starting, a chunk task finishing
(both tagged with the global chunk index), and the inter-batch rate-limit
pause (`asyncio.sleep(0.5)`). -/
inductive Event where
  | taskStart (i : Nat) : Event
  | taskFinish (i : Nat) : Event
  | pauseMs (ms : Nat) : Event
deriving DecidableEq, Repr

/-- Run the tasks of one batch.  `asyncio` interleaves the tasks of a batch
cooperatively with the shared tracker mutated atomically between awaits; the
model serializes this interleaving in list order (intra-batch completion
order is documented as nondeterministic and no verified property depends on
it). -/
def runStep (acc : List (Option RawResult) × Tracker) (it : Item) :
    List (Option RawResult) × Tracker :=
  let (res, tr', _) := processChunk it.2 it.1 acc.2
  (acc.1 ++ [res], tr')

def runBatch (batch : List Item) (tr : Tracker) : List (Option RawResult) × Tracker :=
  batch.foldl runStep ([], tr)

/-- The start events of a batch whose first chunk has global index `k`. -/
def startEvents (k : Nat) (len : Nat) : List Event :=
  (List.range len).map (fun j => .taskStart (k + j))

/-- The finish events of a batch whose first chunk has global index `k`. -/
def finishEvents (k : Nat) (len : Nat) : List Event :=
  (List.range len).map (fun j => .taskFinish (k + j))

/-- The batch loop of `extract_obligation_from_chunks`: run each batch,
discard the `None` results, and pause between batches (the pause is emitted
only when another batch follows, matching `if i + BATCH_SIZE < len(chunks)`). -/
def extractGo (k : Nat) (tr : Tracker) :
    List (List Item) → List RawResult × Tracker × List Event
  | [] => ([], tr, [])
  | b :: rest =>
    let (optRes, tr') := runBatch b tr
    let valid := optRes.filterMap id
    let (more, tr'', evs) := extractGo (k + b.length) tr' rest
    (valid ++ more, tr'',
      (startEvents k b.length ++ finishEvents k b.length ++
        (if rest.isEmpty then [] else [.pauseMs 500])) ++ evs)

/-- One party bucket of the merged result. -/
structure MergedParty where
  name : PyStr
  obligations : List Obligation
deriving DecidableEq, Repr

/-- The singleton dict `{"parties": ...}` wrapping the merged party list. -/
structure MergedTop where
  parties : List MergedParty
deriving DecidableEq, Repr

/-- Extend the bucket of `name` in the insertion-ordered merged dict, or
create it.  A party dict reaching the merge without an `"obligations"` key
would raise `KeyError` in the source; it is modelled as contributing no
obligations — a divergence only reachable for key-less parties, which no
verified claim exercises (`process_chunk` outputs carry the key whenever the
input party did). -/
def addPartyMerge (m : List (PyStr × List Obligation)) (name : PyStr)
    (obs : List Obligation) : List (PyStr × List Obligation) :=
  match m with
  | [] => [(name, obs)]
  | (k, v) :: t => if k = name then (k, v ++ obs) :: t else (k, v) :: addPartyMerge t name obs

/-- The merge-by-party loop over all non-null per-chunk results. -/
def mergeResults (results : List RawResult) : List MergedParty :=
  (results.foldl
    (fun m r =>
      match r.parties with
      | none => m
      | some ps => ps.foldl (fun m' p => addPartyMerge m' p.name (p.obligations.getD [])) m)
    []).map (fun kv => ⟨kv.1, kv.2⟩)

/-- `extract_obligation_from_chunks(chunks)`: batched processing with a fresh
tracker, then the merge, wrapped as the singleton list
`[{"parties": ...}]`; paired with the orchestration event trace. -/
def extractFromChunks (items : List Item) : List MergedTop × List Event :=
  let (results, _, evs) := extractGo 0 freshTracker (batchList items)
  ([⟨mergeResults results⟩], evs)

/-! ### Derived definitions used by the verified properties -/

/-- The normalization key `name.lower().strip()` shared by the tracker's two
operations. -/
def normKey (n : PyStr) : PyStr := pyStrip (pyLower n)

/-- The outputs of a sequence of `standardize_party_name` calls on one
tracker, in call order. -/
def standardizeList (tr : Tracker) : List PyStr → List PyStr
  | [] => []
  | n :: rest =>
    let (v, tr') := standardize tr n
    v :: standardizeList tr' rest

/-- The event trace of a `process_chunk` run all of whose `r` attempts raise:
an LLM invocation followed by a one-second backoff, repeated. -/
def raiseTrace : Nat → List PEvent
  | 0 => []
  | r + 1 => .llmCall :: .sleepMs 1000 :: raiseTrace r

/-- `e1` wholly precedes `e2` in the trace `t`: the trace splits so that
every occurrence of `e1` is in the left part and every occurrence of `e2` in
the right part. -/
def SplitBefore (e1 e2 : Event) (t : List Event) : Prop :=
  ∃ t1 t2, t = t1 ++ t2 ∧ e1 ∉ t2 ∧ e2 ∉ t1

/-- Modelled from the spec: the labels of the spec's description of a section
header ("an optional label (`Section`, `Art.`, `Article`)"), lowered for the
case-insensitive comparison the spec prescribes. -/
def specLabels : List PyStr := [pyOf "section", pyOf "art.", pyOf "article"]

/-- Modelled from the spec: "A section header is recognized by a
case-insensitive pattern: an optional label (`Section`, `Art.`, `Article`)
followed by a dotted numeral and optional title text, anchored to the whole
line."  Used only to compare the spec's description with the code's
behaviour. -/
def sectionHeaderPerSpec (text : PyStr) : Bool :=
  let s := pyLower (pyStrip text)
  let r :=
    match specLabels.find? (fun lab => lab.isPrefixOf s) with
    | some lab => s.drop lab.length
    | none => s
  (matchAfterLabel r).isSome

/-- The declarative reading of the section-header pattern the code actually
implements: a mandatory case-sensitive label (`Section`, `SECTION`, `Art.`,
`ARTICLE`), optional whitespace, a nonempty run of digits/dots, optional
whitespace, an optional `:` or `-`, optional whitespace, and an arbitrary
newline-free title remainder — anchored to the whole stripped line. -/
def HeaderDecomp (t : PyStr) : Prop :=
  ∃ lab w1 num w2 sep w3 title : PyStr,
    pyStrip t = lab ++ (w1 ++ (num ++ (w2 ++ (sep ++ (w3 ++ title))))) ∧
    lab ∈ headerLabels ∧
    (∀ c ∈ w1, isSpaceB c) ∧
    num ≠ [] ∧ (∀ c ∈ num, isDigitDotB c) ∧
    (∀ c ∈ w2, isSpaceB c) ∧
    (sep = [] ∨ sep = [58] ∨ sep = [45]) ∧
    (∀ c ∈ w3, isSpaceB c) ∧
    10 ∉ title

/-! ### Concrete inputs used by witnesses and counterexamples -/

/-- A default chunk for `List.getD`. -/
def dfltChunk : Chunk := ⟨[], [], [], 0, []⟩

/-- A concrete chunk whose LLM result names the party `"Buyer"`. -/
def exChunkA : Chunk := ⟨pyOf "Buyer shall pay", pyOf "1", pyOf "Terms", 0, pyOf "ctx"⟩

/-- A concrete chunk whose LLM result names the party `"buyer"`. -/
def exChunkB : Chunk := ⟨pyOf "buyer shall pay", pyOf "1", pyOf "Terms", 0, pyOf "ctx"⟩

/-- The obligation `{"obligation_text": "Pay $100", "deadline": null,
"section": "1"}` of the spec's merge-correctness test vector. -/
def exOb : Obligation := ⟨pyOf "Pay $100", none, pyOf "1"⟩

/-- LLM behaviour answering `{"parties": [{"name": "Buyer", "obligations":
[exOb]}]}` on every attempt. -/
def orcBuyer : Oracle := fun _ => .reply (pyOf "j") (some ⟨some [⟨pyOf "Buyer", some [exOb]⟩]⟩)

/-- LLM behaviour answering the same single obligation under party name
`"buyer"` on every attempt. -/
def orcBuyerLower : Oracle :=
  fun _ => .reply (pyOf "j") (some ⟨some [⟨pyOf "buyer", some [exOb]⟩]⟩)

/-- LLM behaviour raising an exception on every attempt. -/
def orcRaise : Oracle := fun _ => .raiseExc

/-- LLM behaviour answering the literal content `"null"` on every attempt. -/
def orcNull : Oracle := fun _ => .reply (pyOf "null") none

/-! ### Basic string lemmas -/

theorem dropWhile_append_all {α : Type _} (p : α → Bool) (w l : List α)
    (h : ∀ x ∈ w, p x) : (w ++ l).dropWhile p = l.dropWhile p := by
  induction w with
  | nil => rfl
  | cons a w ih =>
    simp only [List.cons_append, List.dropWhile_cons]
    rw [if_pos (h a (by simp)), ih (fun x hx => h x (by simp [hx]))]

theorem takeWhile_append_all {α : Type _} (p : α → Bool) (w l : List α)
    (h : ∀ x ∈ w, p x) : (w ++ l).takeWhile p = w ++ l.takeWhile p := by
  induction w with
  | nil => rfl
  | cons a w ih =>
    simp only [List.cons_append, List.takeWhile_cons]
    rw [if_pos (h a (by simp)), ih (fun x hx => h x (by simp [hx]))]

theorem dropWhile_eq_nil_iff_all {α : Type _} (p : α → Bool) (l : List α) :
    l.dropWhile p = [] ↔ ∀ x ∈ l, p x := by
  induction l with
  | nil => simp
  | cons a l ih =>
    simp only [List.dropWhile_cons]
    by_cases hp : p a <;> simp [hp, ih]

theorem rstripP_append_space (l : PyStr) (c : Nat) (h : isSpaceB c) :
    rstripP (l ++ [c]) = rstripP l := by
  simp only [rstripP, List.reverse_append, List.reverse_cons, List.reverse_nil,
    List.nil_append, List.singleton_append, List.dropWhile_cons, h, if_true]

theorem length_rstripP_le (l : PyStr) : (rstripP l).length ≤ l.length := by
  simpa [rstripP] using (List.dropWhile_sublist isSpaceB (l := l.reverse)).length_le

theorem length_pyStrip_le (l : PyStr) : (pyStrip l).length ≤ l.length :=
  le_trans (by simpa [pyStrip, lstripP] using
    (List.dropWhile_sublist isSpaceB (l := rstripP l)).length_le) (length_rstripP_le l)

theorem pyStrip_append_space (l : PyStr) (c : Nat) (h : isSpaceB c) :
    pyStrip (l ++ [c]) = pyStrip l := by
  simp [pyStrip, rstripP_append_space l c h]

theorem rstripP_eq_nil_iff (l : PyStr) : rstripP l = [] ↔ ∀ c ∈ l, isSpaceB c := by
  rw [rstripP, List.reverse_eq_nil_iff, dropWhile_eq_nil_iff_all]
  simp

theorem mem_rstripP (l : PyStr) (c : Nat) (h : c ∈ rstripP l) : c ∈ l := by
  rw [rstripP, List.mem_reverse] at h
  exact List.mem_reverse.mp ((List.dropWhile_sublist isSpaceB).mem h)

theorem pyStrip_eq_nil_iff (l : PyStr) : pyStrip l = [] ↔ ∀ c ∈ l, isSpaceB c := by
  rw [pyStrip, lstripP, dropWhile_eq_nil_iff_all]
  constructor
  · intro h c hc
    by_cases hall : ∀ x ∈ l, isSpaceB x
    · exact hall c hc
    · have hr : l.reverse = l.reverse.takeWhile isSpaceB ++ l.reverse.dropWhile isSpaceB :=
        (List.takeWhile_append_dropWhile isSpaceB l.reverse).symm
      have : ∀ x ∈ l.reverse, isSpaceB x := by
        intro x hx
        rw [hr] at hx
        rcases List.mem_append.mp hx with hx | hx
        · exact List.mem_takeWhile_imp hx
        · exact h x (by simpa [rstripP, List.mem_reverse] using hx)
      exact this c (List.mem_reverse.mpr hc)
  · intro h c hc
    exact h c (mem_rstripP l c hc)

theorem pyStrip_ne_nil_of_append_left (x y : PyStr) (h : pyStrip x ≠ []) :
    pyStrip (x ++ y) ≠ [] := by
  intro hcontra
  exact h ((pyStrip_eq_nil_iff x).mpr
    (fun c hc => (pyStrip_eq_nil_iff (x ++ y)).mp hcontra c (by simp [hc])))

/-! ### C8: duplicate suppression -/

/-- C8: on a fresh tracker, the first `is_duplicate(t)` call returns `False`
and records the normalized text (standing for its hash), and a second call
with the same text or any casing/whitespace variant of it (any `t2` with the
same `lower().strip()` normalization) returns `True` and leaves the tracker's
state unchanged. -/
theorem is_duplicate_false_then_true (t t2 : PyStr)
    (h : pyStrip (pyLower t2) = pyStrip (pyLower t)) :
    (isDuplicate freshTracker t).1 = false ∧
    (isDuplicate freshTracker t).2.seen = [pyStrip (pyLower t)] ∧
    (isDuplicate (isDuplicate freshTracker t).2 t2).1 = true ∧
    (isDuplicate (isDuplicate freshTracker t).2 t2).2 = (isDuplicate freshTracker t).2 := by
  simp [isDuplicate, freshTracker, h]

/-- Witness for C8 at the concrete text `"Pay $100"` and its
casing/whitespace variant `"  PAY $100 "`. -/
theorem is_duplicate_false_then_true_witness :
    pyStrip (pyLower (pyOf "  PAY $100 ")) = pyStrip (pyLower (pyOf "Pay $100")) ∧
    ((isDuplicate freshTracker (pyOf "Pay $100")).1 = false ∧
     (isDuplicate freshTracker (pyOf "Pay $100")).2.seen =
       [pyStrip (pyLower (pyOf "Pay $100"))] ∧
     (isDuplicate (isDuplicate freshTracker (pyOf "Pay $100")).2 (pyOf "  PAY $100 ")).1 = true ∧
     (isDuplicate (isDuplicate freshTracker (pyOf "Pay $100")).2 (pyOf "  PAY $100 ")).2 =
       (isDuplicate freshTracker (pyOf "Pay $100")).2) :=
  ⟨by decide, is_duplicate_false_then_true (pyOf "Pay $100") (pyOf "  PAY $100 ") (by decide)⟩

/-! ### C7: party-name canonicalization -/

theorem toLowerN_toLowerN (n : Nat) : toLowerN (toLowerN n) = toLowerN n := by
  by_cases h : 65 ≤ n ∧ n ≤ 90
  · simp only [toLowerN, if_pos h]
    rw [if_neg (by omega)]
  · simp only [toLowerN, if_neg h]

theorem toLowerN_toUpperN (n : Nat) : toLowerN (toUpperN n) = toLowerN n := by
  by_cases h : 97 ≤ n ∧ n ≤ 122
  · simp only [toUpperN, if_pos h, toLowerN]
    rw [if_pos (by omega), if_neg (by omega)]
    omega
  · simp only [toUpperN, if_neg h]

theorem pyLower_pyTitleGo (l : PyStr) : ∀ b : Bool, pyLower (pyTitleGo b l) = pyLower l := by
  induction l with
  | nil => intro b; rfl
  | cons c cs ih =>
    intro b
    simp only [pyTitleGo]
    by_cases ha : isAlphaB c
    · have ihT : List.map toLowerN (pyTitleGo true cs) = List.map toLowerN cs := by
        simpa [pyLower] using ih true
      cases b <;> simp [ha, pyLower, toLowerN_toLowerN, toLowerN_toUpperN, ihT]
    · have ihF : List.map toLowerN (pyTitleGo false cs) = List.map toLowerN cs := by
        simpa [pyLower] using ih false
      simp [ha, pyLower, ihF]

theorem normKey_pyTitle (l : PyStr) : normKey (pyTitle l) = normKey l := by
  simp only [normKey, pyTitle, pyLower_pyTitleGo]

theorem lookupA_append (m1 m2 : List (PyStr × PyStr)) (k : PyStr) :
    lookupA (m1 ++ m2) k =
      (match lookupA m1 k with
       | some v => some v
       | none => lookupA m2 k) := by
  induction m1 with
  | nil => rfl
  | cons kv t ih =>
    by_cases hk : kv.1 = k
    · simp [lookupA, hk]
    · simpa [lookupA, hk] using ih

theorem standardize_eq (tr : Tracker) (n : PyStr) :
    standardize tr n =
      (match lookupA tr.partyNames (normKey n) with
       | some v => (v, tr)
       | none =>
         (pyTitle n, { tr with partyNames := tr.partyNames ++ [(normKey n, pyTitle n)] })) := rfl

theorem standardizeList_length (names : List PyStr) : ∀ tr : Tracker,
    (standardizeList tr names).length = names.length := by
  induction names with
  | nil => intro tr; rfl
  | cons n rest ih => intro tr; simp [standardizeList, ih]

theorem standardizeList_getD (names : List PyStr) : ∀ (tr : Tracker) (j : Nat)
    (hj : j < names.length),
    (standardizeList tr names).getD j [] =
      (match lookupA tr.partyNames (normKey names[j]) with
       | some v => v
       | none =>
         pyTitle ((names.find? (fun m => normKey m == normKey names[j])).getD [])) := by
  induction names with
  | nil => intro tr j hj; simp at hj
  | cons n rest ih =>
    intro tr j hj
    cases j with
    | zero =>
      have h0 : standardizeList tr (n :: rest) =
          (standardize tr n).1 :: standardizeList (standardize tr n).2 rest := rfl
      rw [h0]
      simp only [List.getD_cons_zero, List.getElem_cons_zero, standardize_eq]
      cases hk : lookupA tr.partyNames (normKey n) with
      | some v => rfl
      | none =>
        have hfind : (n :: rest).find? (fun m => normKey m == normKey n) = some n := by
          simp [List.find?_cons]
        simp [hfind]
    | succ j =>
      have hj' : j < rest.length := by simpa using hj
      have hL : (standardizeList tr (n :: rest)).getD (j + 1) [] =
          (standardizeList (standardize tr n).2 rest).getD j [] := rfl
      rw [hL, ih (standardize tr n).2 j hj']
      simp only [List.getElem_cons_succ]
      by_cases hkeq : normKey n = normKey rest[j]
      · cases hk0 : lookupA tr.partyNames (normKey n) with
        | some v0 =>
          have htr : (standardize tr n).2 = tr := by rw [standardize_eq, hk0]
          rw [htr, ← hkeq, hk0]
        | none =>
          have htr : (standardize tr n).2.partyNames =
              tr.partyNames ++ [(normKey n, pyTitle n)] := by
            rw [standardize_eq, hk0]
          rw [htr, lookupA_append, ← hkeq, hk0]
          have hfind : ((n :: rest).find? (fun m => normKey m == normKey n)) = some n := by
            simp [List.find?_cons]
          simp [lookupA, hfind]
      · have hb : (normKey n == normKey rest[j]) = false := beq_eq_false_iff_ne.mpr hkeq
        have hlk : lookupA (standardize tr n).2.partyNames (normKey rest[j]) =
            lookupA tr.partyNames (normKey rest[j]) := by
          cases hk0 : lookupA tr.partyNames (normKey n) with
          | some v0 =>
            have htr : (standardize tr n).2 = tr := by rw [standardize_eq, hk0]
            rw [htr]
          | none =>
            have htr : (standardize tr n).2.partyNames =
                tr.partyNames ++ [(normKey n, pyTitle n)] := by
              rw [standardize_eq, hk0]
            rw [htr, lookupA_append]
            cases hk1 : lookupA tr.partyNames (normKey rest[j]) with
            | some v => rfl
            | none => simp [lookupA, hkeq]
        rw [hlk]
        have hfind : ((n :: rest).find? (fun m => normKey m == normKey rest[j])) =
            rest.find? (fun m => normKey m == normKey rest[j]) := by
          simp [List.find?_cons, hb]
        rw [hfind]

/-- C7: over any sequence of `standardize_party_name` calls on one fresh
tracker, every call returns the Title-Case form of the first name in the
sequence with the same normalized (lowercased, trimmed) key — so the first
call with a key stores and returns its Title-Case form and all later
same-key calls return exactly that stored string — and calls whose names
normalize to different keys never return the same string. -/
theorem standardize_party_name_canonical (names : List PyStr) (i j : Nat)
    (hi : i < names.length) (hj : j < names.length) :
    (standardizeList freshTracker names).length = names.length ∧
    (standardizeList freshTracker names).getD j [] =
      pyTitle ((names.find? (fun m => normKey m == normKey names[j])).getD []) ∧
    (normKey names[i] = normKey names[j] →
      (standardizeList freshTracker names).getD i [] =
        (standardizeList freshTracker names).getD j []) ∧
    (normKey names[i] ≠ normKey names[j] →
      (standardizeList freshTracker names).getD i [] ≠
        (standardizeList freshTracker names).getD j []) := by
  have hout : ∀ (k : Nat) (hk : k < names.length),
      (standardizeList freshTracker names).getD k [] =
        pyTitle ((names.find? (fun m => normKey m == normKey names[k])).getD []) := by
    intro k hk
    have := standardizeList_getD names freshTracker k hk
    simpa [freshTracker, lookupA] using this
  have hfindKey : ∀ (k : Nat) (hk : k < names.length),
      normKey ((names.find? (fun m => normKey m == normKey names[k])).getD []) =
        normKey names[k] := by
    intro k hk
    cases hf : names.find? (fun m => normKey m == normKey names[k]) with
    | none =>
      exact absurd (List.find?_eq_none.mp hf names[k] (List.getElem_mem hk)) (by simp)
    | some m =>
      simpa using List.find?_some hf
  refine ⟨standardizeList_length names freshTracker, hout j hj, ?_, ?_⟩
  · intro h
    rw [hout i hi, hout j hj, h]
  · intro h hcontra
    rw [hout i hi, hout j hj] at hcontra
    have := congrArg normKey hcontra
    rw [normKey_pyTitle, normKey_pyTitle, hfindKey i hi, hfindKey j hj] at this
    exact h this

/-- Witness for C7 on the call sequence
`["THE COMPANY", "the company", "Company"]` at call indices 1 and 2. -/
theorem standardize_party_name_canonical_witness :
    1 < ([pyOf "THE COMPANY", pyOf "the company", pyOf "Company"] : List PyStr).length ∧
    2 < ([pyOf "THE COMPANY", pyOf "the company", pyOf "Company"] : List PyStr).length ∧
    ((standardizeList freshTracker [pyOf "THE COMPANY", pyOf "the company", pyOf "Company"]).length =
      ([pyOf "THE COMPANY", pyOf "the company", pyOf "Company"] : List PyStr).length ∧
    (standardizeList freshTracker [pyOf "THE COMPANY", pyOf "the company", pyOf "Company"]).getD 2 [] =
      pyTitle ((([pyOf "THE COMPANY", pyOf "the company", pyOf "Company"] : List PyStr).find?
        (fun m => normKey m ==
          normKey (([pyOf "THE COMPANY", pyOf "the company", pyOf "Company"] : List PyStr)[2]))).getD []) ∧
    (normKey (([pyOf "THE COMPANY", pyOf "the company", pyOf "Company"] : List PyStr)[1]) =
        normKey (([pyOf "THE COMPANY", pyOf "the company", pyOf "Company"] : List PyStr)[2]) →
      (standardizeList freshTracker [pyOf "THE COMPANY", pyOf "the company", pyOf "Company"]).getD 1 [] =
        (standardizeList freshTracker [pyOf "THE COMPANY", pyOf "the company", pyOf "Company"]).getD 2 []) ∧
    (normKey (([pyOf "THE COMPANY", pyOf "the company", pyOf "Company"] : List PyStr)[1]) ≠
        normKey (([pyOf "THE COMPANY", pyOf "the company", pyOf "Company"] : List PyStr)[2]) →
      (standardizeList freshTracker [pyOf "THE COMPANY", pyOf "the company", pyOf "Company"]).getD 1 [] ≠
        (standardizeList freshTracker [pyOf "THE COMPANY", pyOf "the company", pyOf "Company"]).getD 2 [])) :=
  ⟨by decide, by decide,
    standardize_party_name_canonical
      [pyOf "THE COMPANY", pyOf "the company", pyOf "Company"] 1 2 (by decide) (by decide)⟩

/-! ### C2: merge of two chunk results under one shared tracker -/

/-- C2: with one shared tracker, a chunk result naming party `"Buyer"` with
obligation `"Pay $100"` followed by a chunk result naming party `"buyer"`
with the identical obligation text merges to exactly one party, named
`"Buyer"`, with exactly one obligation: the duplicate is dropped and the
second party name is canonicalized to the first-seen form. -/
theorem merge_two_chunk_results_one_buyer :
    (extractFromChunks [(exChunkA, orcBuyer), (exChunkB, orcBuyerLower)]).1 =
      [⟨[⟨pyOf "Buyer", [⟨pyOf "Pay $100", none, pyOf "1"⟩]⟩]⟩] := by decide

/-! ### C3: retry exhaustion -/

theorem batchList_flatten (l : List α) : (batchList l).flatten = l := by
  induction l using batchList.induct <;> simp_all [batchList]

theorem processChunkGo_raise (orc : Oracle) (c : Chunk) (h : ∀ n, orc n = .raiseExc) :
    ∀ (r a : Nat) (tr : Tracker), processChunkGo orc c a r tr = (none, tr, raiseTrace r) := by
  intro r
  induction r with
  | zero => intro a tr; rfl
  | succ r ih =>
    intro a tr
    simp only [processChunkGo, h a, ih (a + 1), raiseTrace]

theorem processChunk_raise (orc : Oracle) (c : Chunk) (h : ∀ n, orc n = .raiseExc)
    (tr : Tracker) :
    processChunk orc c tr =
      (none, tr, [.llmCall, .sleepMs 1000, .llmCall, .sleepMs 1000, .llmCall, .sleepMs 1000]) :=
  processChunkGo_raise orc c h MAX_RETRIES 0 tr

theorem runBatch_acc (l : List Item) : ∀ (a : List (Option RawResult)) (tr : Tracker),
    l.foldl runStep (a, tr) = (a ++ (runBatch l tr).1, (runBatch l tr).2) := by
  induction l with
  | nil => intro a tr; simp [runBatch]
  | cons it l ih =>
    intro a tr
    have e3 : runBatch (it :: l) tr =
        ([(processChunk it.2 it.1 tr).1] ++ (runBatch l (processChunk it.2 it.1 tr).2.1).1,
          (runBatch l (processChunk it.2 it.1 tr).2.1).2) := by
      show List.foldl runStep ([], tr) (it :: l) = _
      rw [List.foldl_cons]
      exact ih [(processChunk it.2 it.1 tr).1] (processChunk it.2 it.1 tr).2.1
    rw [List.foldl_cons, e3]
    have h := ih (a ++ [(processChunk it.2 it.1 tr).1]) (processChunk it.2 it.1 tr).2.1
    exact h.trans (by simp)

theorem runBatch_cons (it : Item) (l : List Item) (tr : Tracker) :
    runBatch (it :: l) tr =
      ((processChunk it.2 it.1 tr).1 :: (runBatch l (processChunk it.2 it.1 tr).2.1).1,
        (runBatch l (processChunk it.2 it.1 tr).2.1).2) := by
  show List.foldl runStep ([], tr) (it :: l) = _
  rw [List.foldl_cons]
  have h := runBatch_acc l [(processChunk it.2 it.1 tr).1] (processChunk it.2 it.1 tr).2.1
  exact h.trans (by simp)

theorem runBatch_append (l1 l2 : List Item) (tr : Tracker) :
    runBatch (l1 ++ l2) tr =
      ((runBatch l1 tr).1 ++ (runBatch l2 (runBatch l1 tr).2).1,
        (runBatch l2 (runBatch l1 tr).2).2) := by
  show List.foldl runStep ([], tr) (l1 ++ l2) = _
  rw [List.foldl_append]
  exact runBatch_acc l2 (runBatch l1 tr).1 (runBatch l1 tr).2

theorem extractGo_results (bs : List (List Item)) : ∀ (k : Nat) (tr : Tracker),
    (extractGo k tr bs).1 = (runBatch bs.flatten tr).1.filterMap id ∧
    (extractGo k tr bs).2.1 = (runBatch bs.flatten tr).2 := by
  induction bs with
  | nil => intro k tr; exact ⟨rfl, rfl⟩
  | cons b rest ih =>
    intro k tr
    have hflat : (b :: rest).flatten = b ++ rest.flatten := rfl
    rw [hflat]
    constructor
    · simp only [extractGo, (ih (k + b.length) (runBatch b tr).2).1, runBatch_append,
        List.filterMap_append]
    · simp only [extractGo, (ih (k + b.length) (runBatch b tr).2).2, runBatch_append]

/-- C3: a chunk whose every processing attempt raises is attempted exactly 3
times, with a one-second backoff after each failed attempt (in particular
between consecutive attempts), and then yields `None` with the shared tracker
untouched; the orchestrated run drops that `None` and returns exactly the
merged result that the remaining chunks alone would produce. -/
theorem retry_exhaustion_absorbed (c : Chunk) (orc : Oracle) (h : ∀ n, orc n = .raiseExc)
    (tr : Tracker) (pre post : List Item) :
    processChunk orc c tr =
      (none, tr, [.llmCall, .sleepMs 1000, .llmCall, .sleepMs 1000, .llmCall, .sleepMs 1000]) ∧
    (extractFromChunks (pre ++ (c, orc) :: post)).1 = (extractFromChunks (pre ++ post)).1 := by
  refine ⟨processChunk_raise orc c h tr, ?_⟩
  have hres : ∀ items : List Item,
      (extractFromChunks items).1 =
        [⟨mergeResults ((runBatch items freshTracker).1.filterMap id)⟩] := by
    intro items
    have := (extractGo_results (batchList items) 0 freshTracker).1
    rw [batchList_flatten] at this
    simp only [extractFromChunks, this]
  rw [hres, hres]
  have hsplit : runBatch (pre ++ (c, orc) :: post) freshTracker =
      ((runBatch pre freshTracker).1 ++
        (none :: (runBatch post (runBatch pre freshTracker).2).1),
        (runBatch post (runBatch pre freshTracker).2).2) := by
    rw [runBatch_append, runBatch_cons]
    rw [processChunk_raise orc c h]
  rw [hsplit, runBatch_append]
  simp [List.filterMap_append]

/-- Witness for C3: the always-raising chunk `exChunkA` alongside the
succeeding chunk `exChunkB`. -/
theorem retry_exhaustion_absorbed_witness :
    (∀ n, orcRaise n = .raiseExc) ∧
    (processChunk orcRaise exChunkA freshTracker =
      (none, freshTracker,
        [.llmCall, .sleepMs 1000, .llmCall, .sleepMs 1000, .llmCall, .sleepMs 1000]) ∧
    (extractFromChunks ([] ++ (exChunkA, orcRaise) :: [(exChunkB, orcBuyerLower)])).1 =
      (extractFromChunks ([] ++ [(exChunkB, orcBuyerLower)])).1) :=
  ⟨fun _ => rfl,
    retry_exhaustion_absorbed exChunkA orcRaise (fun _ => rfl) freshTracker []
      [(exChunkB, orcBuyerLower)]⟩

/-! ### C4: the `"null"` sentinel -/

/-- C4 counterexample: a chunk whose LLM response is the literal `"null"` on
the first attempt does not return after one invocation — the `try` body
completes without returning, the loop continues, and with `"null"` on every
attempt exactly 3 LLM invocations happen before `None` is returned. -/
theorem null_response_counterexample :
    pyLower (pyStrip (pyOf "null")) = pyOf "null" ∧
    (processChunk orcNull exChunkA freshTracker).2.2 = [.llmCall, .llmCall, .llmCall] ∧
    ¬((processChunk orcNull exChunkA freshTracker).2.2.count .llmCall = 1) ∧
    (processChunk orcNull exChunkA freshTracker).1 = none := by decide

theorem processChunkGo_null (orc : Oracle) (c : Chunk) : ∀ (r a : Nat) (tr : Tracker),
    (∀ n, a ≤ n → n < a + r →
      ∃ s p, orc n = .reply s p ∧ pyLower (pyStrip s) = pyOf "null") →
    processChunkGo orc c a r tr = (none, tr, List.replicate r .llmCall) := by
  intro r
  induction r with
  | zero => intro a tr _; rfl
  | succ r ih =>
    intro a tr h
    obtain ⟨s, p, horc, hnull⟩ := h a (le_refl a) (by omega)
    have hrec := ih (a + 1) tr (fun n hn1 hn2 => h n (by omega) (by omega))
    simp only [processChunkGo, horc, if_pos hnull, hrec, List.replicate_succ]

/-- C4 (amended): a `"null"` response (case-insensitive, whitespace-trimmed)
ends the current attempt with no further output from that chunk and no
backoff sleep, but it does consume a retry attempt: the loop proceeds to a
further LLM invocation, so a chunk answered `"null"` on all 3 attempts
returns `None` after exactly 3 LLM invocations, leaving the tracker
unchanged. -/
theorem null_response_consumes_attempts (orc : Oracle) (c : Chunk) (tr : Tracker)
    (h : ∀ n, n < MAX_RETRIES →
      ∃ s p, orc n = .reply s p ∧ pyLower (pyStrip s) = pyOf "null") :
    processChunk orc c tr = (none, tr, [.llmCall, .llmCall, .llmCall]) :=
  processChunkGo_null orc c MAX_RETRIES 0 tr (fun n _ hn2 => h n (by simpa using hn2))

/-- Witness for the amended C4 at the all-`"null"` behaviour `orcNull`. -/
theorem null_response_consumes_attempts_witness :
    (∀ n, n < MAX_RETRIES →
      ∃ s p, orcNull n = .reply s p ∧ pyLower (pyStrip s) = pyOf "null") ∧
    processChunk orcNull exChunkA freshTracker =
      (none, freshTracker, [.llmCall, .llmCall, .llmCall]) :=
  ⟨fun _ _ => ⟨pyOf "null", none, rfl, by decide⟩,
    null_response_consumes_attempts orcNull exChunkA freshTracker
      (fun _ _ => ⟨pyOf "null", none, rfl, by decide⟩)⟩

/-! ### C5: section tag of a flushed chunk -/

/-- C5 counterexample: with `max_tokens = 2` and the buffer holding
`"AAAAAAAAA"` under the empty pre-flush section, the overflow-triggering
section-header paragraph `"Section 2: T"` produces a flushed chunk tagged
with the header's own section `"2"`, not with the pre-flush active section
`""`. -/
theorem flush_section_tag_counterexample :
    extractSectionInfo (pyOf "Section 2: T") = some ⟨pyOf "2", pyOf "T"⟩ ∧
    (stepPara 2 initChunkState (1, pyOf "AAAAAAAAA")).current_section = ⟨[], []⟩ ∧
    ¬((stepPara 2 initChunkState (1, pyOf "AAAAAAAAA")).current_chunk.length +
        (pyOf "Section 2: T").length < 2 * 4) ∧
    (stepPara 2 (stepPara 2 initChunkState (1, pyOf "AAAAAAAAA"))
        (1, pyOf "Section 2: T")).chunks.map Chunk.section_number = [pyOf "2"] ∧
    pyOf "2" ≠ ([] : PyStr) := by decide

/-- C5 (amended): when appending a paragraph would exceed the size limit and
the buffer is non-blank, `chunk_text` flushes the buffer as a chunk tagged
with the section active after the paragraph is examined — for an
overflow-triggering section-header paragraph, that header's own section,
because the section update precedes the size check — and with the pre-update
`current_page`. -/
theorem flush_tagged_with_updated_section (mt : Nat) (st : ChunkState) (pn : Nat) (p : PyStr)
    (info : SecInfo) (hsec : extractSectionInfo p = some info)
    (hover : ¬(st.current_chunk.length + p.length < mt * 4))
    (hbuf : pyStrip st.current_chunk ≠ []) :
    stepPara mt st (pn, p) =
      { chunks := st.chunks ++
          [{ text := pyStrip st.current_chunk
             section_number := info.number
             section_title := info.title
             page_number := st.current_page
             context := mkContext st.current_page info }]
        current_chunk := p ++ [10]
        current_section := info
        current_page := pn } := by
  simp [stepPara, hsec, hover, hbuf, flushChunk]

/-- Witness for the amended C5 at the concrete overflow input. -/
theorem flush_tagged_with_updated_section_witness :
    extractSectionInfo (pyOf "Section 2: T") = some ⟨pyOf "2", pyOf "T"⟩ ∧
    ¬((stepPara 2 initChunkState (1, pyOf "AAAAAAAAA")).current_chunk.length +
        (pyOf "Section 2: T").length < 2 * 4) ∧
    pyStrip (stepPara 2 initChunkState (1, pyOf "AAAAAAAAA")).current_chunk ≠ [] ∧
    stepPara 2 (stepPara 2 initChunkState (1, pyOf "AAAAAAAAA")) (1, pyOf "Section 2: T") =
      { chunks := (stepPara 2 initChunkState (1, pyOf "AAAAAAAAA")).chunks ++
          [{ text := pyStrip (stepPara 2 initChunkState (1, pyOf "AAAAAAAAA")).current_chunk
             section_number := pyOf "2"
             section_title := pyOf "T"
             page_number := (stepPara 2 initChunkState (1, pyOf "AAAAAAAAA")).current_page
             context := mkContext (stepPara 2 initChunkState (1, pyOf "AAAAAAAAA")).current_page
               ⟨pyOf "2", pyOf "T"⟩ }]
        current_chunk := pyOf "Section 2: T" ++ [10]
        current_section := ⟨pyOf "2", pyOf "T"⟩
        current_page := 1 } :=
  ⟨by decide, by decide, by decide,
    flush_tagged_with_updated_section 2 (stepPara 2 initChunkState (1, pyOf "AAAAAAAAA")) 1
      (pyOf "Section 2: T") ⟨pyOf "2", pyOf "T"⟩ (by decide) (by decide) (by decide)⟩

/-! ### C1: chunk size bound -/

theorem stepPara_preserves_bound (mt : Nat) (ps0 : List (Nat × PyStr))
    (st : ChunkState) (pp : Nat × PyStr) (hpp : pp ∈ ps0)
    (hc : ∀ c ∈ st.chunks, c.text.length < mt * 4 ∨
      ∃ pn p, (pn, p) ∈ ps0 ∧ c.text = pyStrip p ∧ mt * 4 ≤ p.length)
    (hb : st.current_chunk = [] ∨ ∃ l, st.current_chunk = l ++ [10] ∧
      (st.current_chunk.length ≤ mt * 4 ∨
        ∃ pn p, (pn, p) ∈ ps0 ∧ l = p ∧ mt * 4 ≤ p.length)) :
    (∀ c ∈ (stepPara mt st pp).chunks, c.text.length < mt * 4 ∨
      ∃ pn p, (pn, p) ∈ ps0 ∧ c.text = pyStrip p ∧ mt * 4 ≤ p.length) ∧
    ((stepPara mt st pp).current_chunk = [] ∨
      ∃ l, (stepPara mt st pp).current_chunk = l ++ [10] ∧
      ((stepPara mt st pp).current_chunk.length ≤ mt * 4 ∨
        ∃ pn p, (pn, p) ∈ ps0 ∧ l = p ∧ mt * 4 ≤ p.length)) := by
  obtain ⟨pn, p⟩ := pp
  by_cases hlt : st.current_chunk.length + p.length < mt * 4
  · have hst : stepPara mt st (pn, p) =
        { st with
          current_chunk := st.current_chunk ++ p ++ [10]
          current_section :=
            match extractSectionInfo p with
            | some info => info
            | none => st.current_section } := by
      simp [stepPara, hlt]
    rw [hst]
    refine ⟨hc, Or.inr ⟨st.current_chunk ++ p, by simp, Or.inl ?_⟩⟩
    simp only [List.append_assoc, List.length_append, List.length_cons, List.length_nil]
    omega
  · have hst : stepPara mt st (pn, p) =
        { chunks := st.chunks ++
            (if pyStrip st.current_chunk = [] then []
             else [flushChunk st
               (match extractSectionInfo p with
                | some info => info
                | none => st.current_section)])
          current_chunk := p ++ [10]
          current_section :=
            match extractSectionInfo p with
            | some info => info
            | none => st.current_section
          current_page := pn } := by
      simp [stepPara, hlt]
    rw [hst]
    constructor
    · intro c hcmem
      simp only [List.mem_append] at hcmem
      rcases hcmem with hcmem | hcmem
      · exact hc c hcmem
      · by_cases hstrip : pyStrip st.current_chunk = []
        · simp [hstrip] at hcmem
        · simp only [hstrip, if_neg, ite_false, List.mem_singleton] at hcmem
          rcases hb with hb | ⟨l, hl, hrest⟩
          · rw [hb] at hstrip
            exact absurd rfl hstrip
          · have htext : c.text = pyStrip l := by
              rw [hcmem]
              show pyStrip st.current_chunk = pyStrip l
              rw [hl, pyStrip_append_space l 10 (by decide)]
            rcases hrest with hlen | ⟨pn', p', hmem, hlp, hge⟩
            · left
              have h1 : (pyStrip l).length ≤ l.length := length_pyStrip_le l
              have h2 : st.current_chunk.length = l.length + 1 := by simp [hl]
              have h3 : st.current_chunk ≠ [] := by simp [hl]
              rw [htext]
              omega
            · right
              exact ⟨pn', p', hmem, by rw [htext, hlp], hge⟩
    · refine Or.inr ⟨p, rfl, ?_⟩
      by_cases hp : p.length < mt * 4
      · left; simp; omega
      · right; exact ⟨pn, p, hpp, rfl, by omega⟩

theorem chunkText_fold_bound (mt : Nat) (ps0 : List (Nat × PyStr)) :
    ∀ (ps : List (Nat × PyStr)) (st : ChunkState),
    (∀ pp ∈ ps, pp ∈ ps0) →
    (∀ c ∈ st.chunks, c.text.length < mt * 4 ∨
      ∃ pn p, (pn, p) ∈ ps0 ∧ c.text = pyStrip p ∧ mt * 4 ≤ p.length) →
    (st.current_chunk = [] ∨ ∃ l, st.current_chunk = l ++ [10] ∧
      (st.current_chunk.length ≤ mt * 4 ∨
        ∃ pn p, (pn, p) ∈ ps0 ∧ l = p ∧ mt * 4 ≤ p.length)) →
    (∀ c ∈ (ps.foldl (stepPara mt) st).chunks, c.text.length < mt * 4 ∨
      ∃ pn p, (pn, p) ∈ ps0 ∧ c.text = pyStrip p ∧ mt * 4 ≤ p.length) ∧
    ((ps.foldl (stepPara mt) st).current_chunk = [] ∨
      ∃ l, (ps.foldl (stepPara mt) st).current_chunk = l ++ [10] ∧
      ((ps.foldl (stepPara mt) st).current_chunk.length ≤ mt * 4 ∨
        ∃ pn p, (pn, p) ∈ ps0 ∧ l = p ∧ mt * 4 ≤ p.length)) := by
  intro ps
  induction ps with
  | nil => intro st _ hc hb; exact ⟨hc, hb⟩
  | cons pp ps ih =>
    intro st hmem hc hb
    have hstep := stepPara_preserves_bound mt ps0 st pp (hmem pp (by simp)) hc hb
    exact ih (stepPara mt st pp) (fun q hq => hmem q (by simp [hq])) hstep.1 hstep.2

/-- C1: every chunk produced by `chunk_text` satisfies
`len(text) < max_tokens * 4`, except possibly a chunk consisting of a single
paragraph of the input whose own length is at least `max_tokens * 4` (its
text is that paragraph, stripped). -/
theorem chunk_size_bound (pages : List PyStr) (mt : Nat) (c : Chunk)
    (hc : c ∈ chunkText pages mt) :
    c.text.length < mt * 4 ∨
    ∃ pn p, (pn, p) ∈ taggedParas pages ∧ c.text = pyStrip p ∧ mt * 4 ≤ p.length := by
  have hinv := chunkText_fold_bound mt (taggedParas pages) (taggedParas pages) initChunkState
    (fun _ h => h) (by simp [initChunkState]) (Or.inl rfl)
  rw [chunkText] at hc
  simp only [List.mem_append] at hc
  rcases hc with hc | hc
  · exact hinv.1 c hc
  · by_cases hstrip :
      pyStrip ((taggedParas pages).foldl (stepPara mt) initChunkState).current_chunk = []
    · simp [hstrip] at hc
    · simp only [hstrip, ite_false, List.mem_singleton] at hc
      rcases hinv.2 with hb | ⟨l, hl, hrest⟩
      · rw [hb] at hstrip
        exact absurd rfl hstrip
      · have htext : c.text = pyStrip l := by
          rw [hc]
          show pyStrip ((taggedParas pages).foldl (stepPara mt) initChunkState).current_chunk =
            pyStrip l
          rw [hl, pyStrip_append_space l 10 (by decide)]
        rcases hrest with hlen | ⟨pn', p', hmem, hlp, hge⟩
        · left
          have h1 : (pyStrip l).length ≤ l.length := length_pyStrip_le l
          have h2 : ((taggedParas pages).foldl (stepPara mt) initChunkState).current_chunk.length =
              l.length + 1 := by simp [hl]
          rw [htext]
          omega
        · right
          exact ⟨pn', p', hmem, by rw [htext, hlp], hge⟩

/-- Witness for C1 at a one-page document. -/
theorem chunk_size_bound_witness :
    (⟨pyOf "Hello", [], [], 0, pyOf "Page 0, Section : "⟩ : Chunk) ∈ chunkText [pyOf "Hello"] 800 ∧
    ((⟨pyOf "Hello", [], [], 0, pyOf "Page 0, Section : "⟩ : Chunk).text.length < 800 * 4 ∨
      ∃ pn p, (pn, p) ∈ taggedParas [pyOf "Hello"] ∧
        (⟨pyOf "Hello", [], [], 0, pyOf "Page 0, Section : "⟩ : Chunk).text = pyStrip p ∧
        800 * 4 ≤ p.length) :=
  ⟨by decide, chunk_size_bound [pyOf "Hello"] 800 _ (by decide)⟩

/-! ### C10: page number of the first chunk -/

/-- C10 counterexample: the non-empty one-page document `["AAAAAAAAA"]` with
`max_tokens = 2` (whose only paragraph already overflows the size check)
yields a first chunk with `page_number = 1`, not 0: `current_page` is
reassigned in the overflow branch even when nothing is flushed. -/
theorem first_chunk_page_counterexample :
    taggedParas [pyOf "AAAAAAAAA"] ≠ [] ∧
    (chunkText [pyOf "AAAAAAAAA"] 2).head?.map Chunk.page_number = some 1 ∧
    ¬((chunkText [pyOf "AAAAAAAAA"] 2).head?.map Chunk.page_number = some 0) := by decide

theorem taggedParas_strip_ne (pages : List PyStr) (pn : Nat) (p : PyStr)
    (h : (pn, p) ∈ taggedParas pages) : pyStrip p ≠ [] := by
  obtain ⟨pr, _, hmem⟩ := List.mem_flatMap.mp h
  simp only [List.mem_map] at hmem
  obtain ⟨q, hq, heq⟩ := hmem
  have hqp : q = p := congrArg Prod.snd heq
  have := (List.mem_filter.mp hq).2
  rw [hqp] at this
  simpa using this

theorem mkContext_zero_prefix (sec : SecInfo) :
    ∃ t, mkContext 0 sec = pyOf "Page 0," ++ t := by
  refine ⟨pyOf " Section " ++ sec.number ++ pyOf ": " ++ sec.title, ?_⟩
  show pyOf "Page " ++ natCodes 0 ++ pyOf ", Section " ++ sec.number ++ pyOf ": " ++ sec.title = _
  have h : ((pyOf "Page " ++ natCodes 0) ++ pyOf ", Section " : PyStr) =
      pyOf "Page 0," ++ pyOf " Section " := by decide
  simp only [← List.append_assoc]
  rw [h]

theorem stepPara_preserves_page0 (mt : Nat) (st : ChunkState) (pp : Nat × PyStr)
    (h : (st.chunks = [] ∧ st.current_page = 0 ∧ pyStrip st.current_chunk ≠ []) ∨
      (∃ c cs, st.chunks = c :: cs ∧ c.page_number = 0 ∧
        ∃ t, c.context = pyOf "Page 0," ++ t)) :
    ((stepPara mt st pp).chunks = [] ∧ (stepPara mt st pp).current_page = 0 ∧
      pyStrip (stepPara mt st pp).current_chunk ≠ []) ∨
    (∃ c cs, (stepPara mt st pp).chunks = c :: cs ∧ c.page_number = 0 ∧
      ∃ t, c.context = pyOf "Page 0," ++ t) := by
  obtain ⟨pn, p⟩ := pp
  by_cases hlt : st.current_chunk.length + p.length < mt * 4
  · have hst : stepPara mt st (pn, p) =
        { st with
          current_chunk := st.current_chunk ++ p ++ [10]
          current_section :=
            match extractSectionInfo p with
            | some info => info
            | none => st.current_section } := by
      simp [stepPara, hlt]
    rw [hst]
    rcases h with ⟨hch, hpg, hbuf⟩ | hr
    · exact Or.inl ⟨hch, hpg, by
        simpa [List.append_assoc] using
          pyStrip_ne_nil_of_append_left st.current_chunk (p ++ [10]) hbuf⟩
    · exact Or.inr hr
  · have hst : stepPara mt st (pn, p) =
        { chunks := st.chunks ++
            (if pyStrip st.current_chunk = [] then []
             else [flushChunk st
               (match extractSectionInfo p with
                | some info => info
                | none => st.current_section)])
          current_chunk := p ++ [10]
          current_section :=
            match extractSectionInfo p with
            | some info => info
            | none => st.current_section
          current_page := pn } := by
      simp [stepPara, hlt]
    rw [hst]
    rcases h with ⟨hch, hpg, hbuf⟩ | ⟨c, cs, hch, hc0, hctx⟩
    · refine Or.inr ?_
      rw [hch, if_neg hbuf]
      refine ⟨_, [], rfl, ?_, ?_⟩
      · simp [flushChunk, hpg]
      · simp only [flushChunk, hpg]
        exact mkContext_zero_prefix _
    · refine Or.inr ⟨c, cs ++
        (if pyStrip st.current_chunk = [] then []
         else [flushChunk st
           (match extractSectionInfo p with
            | some info => info
            | none => st.current_section)]), ?_, hc0, hctx⟩
      rw [hch]
      simp

theorem chunkText_fold_page0 (mt : Nat) : ∀ (ps : List (Nat × PyStr)) (st : ChunkState),
    ((st.chunks = [] ∧ st.current_page = 0 ∧ pyStrip st.current_chunk ≠ []) ∨
      (∃ c cs, st.chunks = c :: cs ∧ c.page_number = 0 ∧
        ∃ t, c.context = pyOf "Page 0," ++ t)) →
    (((ps.foldl (stepPara mt) st).chunks = [] ∧
        (ps.foldl (stepPara mt) st).current_page = 0 ∧
        pyStrip (ps.foldl (stepPara mt) st).current_chunk ≠ []) ∨
      (∃ c cs, (ps.foldl (stepPara mt) st).chunks = c :: cs ∧ c.page_number = 0 ∧
        ∃ t, c.context = pyOf "Page 0," ++ t)) := by
  intro ps
  induction ps with
  | nil => intro st h; exact h
  | cons pp ps ih =>
    intro st h
    exact ih (stepPara mt st pp) (stepPara_preserves_page0 mt st pp h)

/-- C10 (amended): for every document with at least one non-blank paragraph
whose first paragraph passes the size check (`len(p1) < max_tokens*4`, so it
is appended rather than triggering the overflow branch), the first chunk
produced by `chunk_text` has `page_number = 0` and a context beginning
`"Page 0,"`, even though pages are 1-indexed — in particular a document that
fits entirely in one chunk yields a single chunk tagged page 0.  (If the very
first paragraph itself overflows, `current_page` is reassigned before any
flush and the first chunk can carry a nonzero page, refuting the unrestricted
claim.) -/
theorem first_chunk_page_zero (pages : List PyStr) (mt : Nat) (pn1 : Nat) (p1 : PyStr)
    (rest : List (Nat × PyStr)) (h1 : taggedParas pages = (pn1, p1) :: rest)
    (h2 : p1.length < mt * 4) :
    ∃ c cs, chunkText pages mt = c :: cs ∧ c.page_number = 0 ∧
      ∃ t, c.context = pyOf "Page 0," ++ t := by
  have hp1 : pyStrip p1 ≠ [] :=
    taggedParas_strip_ne pages pn1 p1 (by rw [h1]; simp)
  have hst1 : stepPara mt initChunkState (pn1, p1) =
      { chunks := []
        current_chunk := [] ++ p1 ++ [10]
        current_section :=
          match extractSectionInfo p1 with
          | some info => info
          | none => initChunkState.current_section
        current_page := 0 } := by
    simp [stepPara, initChunkState, h2]
  have hinv1 : (stepPara mt initChunkState (pn1, p1)).chunks = [] ∧
      (stepPara mt initChunkState (pn1, p1)).current_page = 0 ∧
      pyStrip (stepPara mt initChunkState (pn1, p1)).current_chunk ≠ [] := by
    rw [hst1]
    exact ⟨rfl, rfl, by
      simpa using pyStrip_ne_nil_of_append_left p1 [10] hp1⟩
  have hfold := chunkText_fold_page0 mt rest (stepPara mt initChunkState (pn1, p1))
    (Or.inl hinv1)
  have hfoldeq : (taggedParas pages).foldl (stepPara mt) initChunkState =
      rest.foldl (stepPara mt) (stepPara mt initChunkState (pn1, p1)) := by
    rw [h1, List.foldl_cons]
  rw [chunkText, hfoldeq]
  rcases hfold with ⟨hch, hpg, hbuf⟩ | ⟨c, cs, hch, hc0, hctx⟩
  · rw [hch, if_neg hbuf]
    refine ⟨_, [], rfl, ?_, ?_⟩
    · simp [flushChunk, hpg]
    · simp only [flushChunk, hpg]
      exact mkContext_zero_prefix _
  · rw [hch]
    refine ⟨c, cs ++
      (if pyStrip (rest.foldl (stepPara mt) (stepPara mt initChunkState (pn1, p1))).current_chunk
          = [] then []
       else [flushChunk (rest.foldl (stepPara mt) (stepPara mt initChunkState (pn1, p1)))
         (rest.foldl (stepPara mt) (stepPara mt initChunkState (pn1, p1))).current_section]),
      by simp, hc0, hctx⟩

/-- Witness for the amended C10 at a small two-paragraph document. -/
theorem first_chunk_page_zero_witness :
    taggedParas [pyOf "Hello\nWorld"] = [(1, pyOf "Hello"), (1, pyOf "World")] ∧
    (pyOf "Hello").length < 800 * 4 ∧
    (∃ c cs, chunkText [pyOf "Hello\nWorld"] 800 = c :: cs ∧ c.page_number = 0 ∧
      ∃ t, c.context = pyOf "Page 0," ++ t) :=
  ⟨by decide, by decide,
    first_chunk_page_zero [pyOf "Hello\nWorld"] 800 1 (pyOf "Hello") [(1, pyOf "World")]
      (by decide) (by decide)⟩

/-! ### C9: batch orchestration -/

theorem batchList_mem_facts {α : Type _} (l : List α) (bk : List α) (hb : bk ∈ batchList l) :
    bk ≠ [] ∧ bk.length ≤ BATCH_SIZE := by
  induction l using batchList.induct with
  | case1 => simp [batchList] at hb
  | case2 a =>
    simp [batchList] at hb
    subst hb
    exact ⟨by simp, by simp [BATCH_SIZE]⟩
  | case3 a b =>
    simp [batchList] at hb
    subst hb
    exact ⟨by simp, by simp [BATCH_SIZE]⟩
  | case4 a b c =>
    simp [batchList] at hb
    subst hb
    exact ⟨by simp, by simp [BATCH_SIZE]⟩
  | case5 a b c d =>
    simp [batchList] at hb
    subst hb
    exact ⟨by simp, by simp [BATCH_SIZE]⟩
  | case6 a b c d e rest ih =>
    rw [batchList] at hb
    rcases List.mem_cons.mp hb with hb | hb
    · subst hb
      exact ⟨by simp, by simp [BATCH_SIZE]⟩
    · exact ih hb

theorem batchList_getD_length {α : Type _} (l : List α) : ∀ m : Nat,
    m + 1 < (batchList l).length → ((batchList l).getD m ([] : List α)).length = BATCH_SIZE := by
  induction l using batchList.induct with
  | case1 => intro m h; simp [batchList] at h
  | case2 a => intro m h; simp [batchList] at h
  | case3 a b => intro m h; simp [batchList] at h
  | case4 a b c => intro m h; simp [batchList] at h
  | case5 a b c d => intro m h; simp [batchList] at h
  | case6 a b c d e rest ih =>
    intro m h
    cases m with
    | zero => rfl
    | succ m =>
      have h' : m + 1 < (batchList rest).length := by
        simpa [batchList] using h
      simpa [batchList] using ih m h'

theorem batchList_take_flatten {α : Type _} (l : List α) : ∀ m : Nat,
    ((batchList l).take m).flatten = l.take (BATCH_SIZE * m) := by
  induction l using batchList.induct with
  | case1 => intro m; simp [batchList]
  | case2 a =>
    intro m
    cases m with
    | zero => simp
    | succ m =>
      rw [List.take_of_length_le (l := [a]) (by simp [BATCH_SIZE]; omega)]
      simp [batchList]
  | case3 a b =>
    intro m
    cases m with
    | zero => simp
    | succ m =>
      rw [List.take_of_length_le (l := [a, b]) (by simp [BATCH_SIZE]; omega)]
      simp [batchList]
  | case4 a b c =>
    intro m
    cases m with
    | zero => simp
    | succ m =>
      rw [List.take_of_length_le (l := [a, b, c]) (by simp [BATCH_SIZE]; omega)]
      simp [batchList]
  | case5 a b c d =>
    intro m
    cases m with
    | zero => simp
    | succ m =>
      rw [List.take_of_length_le (l := [a, b, c, d]) (by simp [BATCH_SIZE]; omega)]
      simp [batchList]
  | case6 a b c d e rest ih =>
    intro m
    cases m with
    | zero => simp
    | succ m =>
      have h5 : BATCH_SIZE * (m + 1) = 5 * m + 1 + 1 + 1 + 1 + 1 := by
        simp [BATCH_SIZE]; ring
      rw [h5]
      simp [batchList, List.take_succ_cons, ih, BATCH_SIZE]

theorem extractGo_cons_trace (k : Nat) (tr : Tracker) (b : List Item)
    (rest : List (List Item)) :
    (extractGo k tr (b :: rest)).2.2 =
      (startEvents k b.length ++ finishEvents k b.length ++
        (if rest.isEmpty then [] else [Event.pauseMs 500])) ++
      (extractGo (k + b.length) (runBatch b tr).2 rest).2.2 := rfl

theorem mem_startEvents (k len i : Nat) :
    Event.taskStart i ∈ startEvents k len ↔ k ≤ i ∧ i < k + len := by
  simp only [startEvents, List.mem_map, List.mem_range]
  constructor
  · rintro ⟨j, hj, heq⟩
    have : k + j = i := by simpa using heq
    omega
  · intro h
    exact ⟨i - k, by omega, by
      have : k + (i - k) = i := by omega
      simp [this]⟩

theorem mem_finishEvents (k len i : Nat) :
    Event.taskFinish i ∈ finishEvents k len ↔ k ≤ i ∧ i < k + len := by
  simp only [finishEvents, List.mem_map, List.mem_range]
  constructor
  · rintro ⟨j, hj, heq⟩
    have : k + j = i := by simpa using heq
    omega
  · intro h
    exact ⟨i - k, by omega, by
      have : k + (i - k) = i := by omega
      simp [this]⟩

theorem extractGo_trace_indices (bs : List (List Item)) : ∀ (k : Nat) (tr : Tracker) (i : Nat),
    (Event.taskStart i ∈ (extractGo k tr bs).2.2 ∨
      Event.taskFinish i ∈ (extractGo k tr bs).2.2) →
    k ≤ i ∧ i < k + bs.flatten.length := by
  induction bs with
  | nil =>
    intro k tr i h
    simp [extractGo] at h
  | cons b rest ih =>
    intro k tr i h
    have hflat : (b :: rest).flatten.length = b.length + rest.flatten.length := by simp
    rw [hflat]
    simp only [extractGo, List.append_assoc, List.mem_append] at h
    rcases h with (h | h | h | h) | (h | h | h | h)
    · have := (mem_startEvents k b.length i).mp h
      omega
    · simp [finishEvents] at h
    · by_cases hre : rest.isEmpty <;> simp [hre] at h
    · have := ih (k + b.length) (runBatch b tr).2 i (Or.inl h)
      omega
    · simp [startEvents] at h
    · have := (mem_finishEvents k b.length i).mp h
      omega
    · by_cases hre : rest.isEmpty <;> simp [hre] at h
    · have := ih (k + b.length) (runBatch b tr).2 i (Or.inr h)
      omega

theorem extractGo_trace_split : ∀ (m : Nat) (bs : List (List Item)) (k : Nat) (tr : Tracker),
    ∃ T1 T2, (extractGo k tr bs).2.2 = T1 ++ T2 ∧
      (∀ i, Event.taskStart i ∈ T1 ∨ Event.taskFinish i ∈ T1 →
        i < k + ((bs.take m).flatten).length) ∧
      (∀ i, Event.taskStart i ∈ T2 ∨ Event.taskFinish i ∈ T2 →
        k + ((bs.take m).flatten).length ≤ i) := by
  intro m
  induction m with
  | zero =>
    intro bs k tr
    refine ⟨[], (extractGo k tr bs).2.2, by simp, by simp, ?_⟩
    intro i h
    have := extractGo_trace_indices bs k tr i h
    simpa using this.1
  | succ m ih =>
    intro bs k tr
    cases bs with
    | nil => exact ⟨[], [], by simp [extractGo], by simp, by simp⟩
    | cons b rest =>
      obtain ⟨T1, T2, heq, h1, h2⟩ := ih rest (k + b.length) (runBatch b tr).2
      refine ⟨(startEvents k b.length ++ finishEvents k b.length ++
          (if rest.isEmpty then [] else [.pauseMs 500])) ++ T1, T2, ?_, ?_, ?_⟩
      · show (extractGo k tr (b :: rest)).2.2 = _
        simp only [extractGo]
        rw [heq]
        simp [List.append_assoc]
      · intro i h
        have hlen : ((b :: rest).take (m + 1)).flatten.length =
            b.length + ((rest.take m).flatten).length := by simp
        rw [hlen]
        rcases h with h | h
        · simp only [List.append_assoc, List.mem_append] at h
          rcases h with h | h | h | h
          · have := (mem_startEvents k b.length i).mp h
            omega
          · simp [finishEvents] at h
          · by_cases hre : rest.isEmpty <;> simp [hre] at h
          · have := h1 i (Or.inl h)
            omega
        · simp only [List.append_assoc, List.mem_append] at h
          rcases h with h | h | h | h
          · simp [startEvents] at h
          · have := (mem_finishEvents k b.length i).mp h
            omega
          · by_cases hre : rest.isEmpty <;> simp [hre] at h
          · have := h1 i (Or.inr h)
            omega
      · intro i h
        have := h2 i h
        have hlen : ((b :: rest).take (m + 1)).flatten.length =
            b.length + ((rest.take m).flatten).length := by simp
        omega

theorem extractGo_pause_count (bs : List (List Item)) : ∀ (k : Nat) (tr : Tracker),
    (extractGo k tr bs).2.2.count (Event.pauseMs 500) = bs.length - 1 := by
  induction bs with
  | nil => intro k tr; rfl
  | cons b rest ih =>
    intro k tr
    have hs : (startEvents k b.length).count (Event.pauseMs 500) = 0 := by
      rw [List.count_eq_zero]
      simp [startEvents]
    have hf : (finishEvents k b.length).count (Event.pauseMs 500) = 0 := by
      rw [List.count_eq_zero]
      simp [finishEvents]
    rw [extractGo_cons_trace]
    cases rest with
    | nil =>
      simp [List.count_append, hs, hf, extractGo]
    | cons r rs =>
      have hrec := ih (k + b.length) (runBatch b tr).2
      simp [List.count_append, hs, hf, hrec]

theorem finishEvents_getLast (k : Nat) : ∀ len : Nat, 0 < len →
    (finishEvents k len).getLast? = some (Event.taskFinish (k + (len - 1))) := by
  intro len hlen
  cases len with
  | zero => omega
  | succ n =>
    have : finishEvents k (n + 1) =
        (List.range n).map (fun j => Event.taskFinish (k + j)) ++ [Event.taskFinish (k + n)] := by
      simp [finishEvents, List.range_succ]
    rw [this, List.getLast?_concat]
    simp

theorem extractGo_trace_ends_finish (bs : List (List Item)) : ∀ (k : Nat) (tr : Tracker),
    bs ≠ [] → (∀ b ∈ bs, b ≠ []) →
    ∃ i, (extractGo k tr bs).2.2.getLast? = some (Event.taskFinish i) := by
  induction bs with
  | nil => intro k tr h _; exact absurd rfl h
  | cons b rest ih =>
    intro k tr _ hne
    cases rest with
    | nil =>
      have hb : 0 < b.length := by
        have hbne := hne b (by simp)
        cases hb0 : b with
        | nil => exact absurd hb0 hbne
        | cons x xs => simp [hb0]
      have hfne : finishEvents k b.length ≠ [] := by
        intro hc
        have h0 : (finishEvents k b.length).length = 0 := by rw [hc]; rfl
        simp only [finishEvents, List.length_map, List.length_range] at h0
        omega
      refine ⟨k + (b.length - 1), ?_⟩
      simp only [extractGo, List.isEmpty_nil, if_true, List.append_nil]
      rw [List.getLast?_append_of_ne_nil _ hfne]
      exact finishEvents_getLast k b.length hb
    | cons r rs =>
      obtain ⟨i, hi⟩ := ih (k + b.length) (runBatch b tr).2 (by simp)
        (fun x hx => hne x (by simp [hx]))
      refine ⟨i, ?_⟩
      simp only [extractGo] at hi ⊢
      rw [List.getLast?_append_of_ne_nil _ (by
        intro hc
        rw [hc] at hi
        simp at hi)]
      exact hi

/-- C9: `extract_obligation_from_chunks` partitions the chunk sequence in
order into batches of `BATCH_SIZE = 5` (all batches full except possibly the
last, which is nonempty); in the orchestration trace no task of a later
batch starts before every task of an earlier batch has finished; exactly one
0.5-second pause is emitted per batch boundary (batch count minus one), and
the trace never ends with a pause — it ends with a task finishing.
(Intra-batch interleaving is cooperative and order-nondeterministic; the
model serializes it, and no part of this statement depends on intra-batch
order.) -/
theorem batch_orchestration (items : List Item) :
    (batchList items).flatten = items ∧
    (∀ bk ∈ batchList items, bk ≠ [] ∧ bk.length ≤ BATCH_SIZE) ∧
    (∀ m, m + 1 < (batchList items).length →
      ((batchList items).getD m []).length = BATCH_SIZE) ∧
    (∀ a b, a < items.length → b < items.length → a / BATCH_SIZE < b / BATCH_SIZE →
      SplitBefore (.taskFinish a) (.taskStart b) (extractFromChunks items).2) ∧
    (extractFromChunks items).2.count (.pauseMs 500) = (batchList items).length - 1 ∧
    (items ≠ [] → ∃ i, (extractFromChunks items).2.getLast? = some (.taskFinish i)) := by
  have htr : (extractFromChunks items).2 =
      (extractGo 0 freshTracker (batchList items)).2.2 := rfl
  have hb5 : BATCH_SIZE = 5 := rfl
  refine ⟨batchList_flatten items, fun bk hb => batchList_mem_facts items bk hb,
    batchList_getD_length items, ?_, ?_, ?_⟩
  · intro a b ha hb hdiv
    rw [htr]
    obtain ⟨T1, T2, heq, h1, h2⟩ :=
      extractGo_trace_split (a / BATCH_SIZE + 1) (batchList items) 0 freshTracker
    have hle : BATCH_SIZE * (a / BATCH_SIZE + 1) ≤ items.length := by
      rw [hb5] at hdiv ⊢
      omega
    have hbound : (((batchList items).take (a / BATCH_SIZE + 1)).flatten).length =
        BATCH_SIZE * (a / BATCH_SIZE + 1) := by
      rw [batchList_take_flatten, List.length_take]
      exact min_eq_left hle
    refine ⟨T1, T2, heq, ?_, ?_⟩
    · intro hmem
      have hcon := h2 a (Or.inr hmem)
      rw [hbound] at hcon
      rw [hb5] at hcon
      omega
    · intro hmem
      have hcon := h1 b (Or.inl hmem)
      rw [hbound] at hcon
      rw [hb5] at hcon hdiv
      omega
  · rw [htr]
    exact extractGo_pause_count (batchList items) 0 freshTracker
  · intro hne
    rw [htr]
    refine extractGo_trace_ends_finish (batchList items) 0 freshTracker ?_
      (fun bk hbk => (batchList_mem_facts items bk hbk).1)
    intro hc
    have hflat := batchList_flatten items
    rw [hc] at hflat
    simp at hflat
    exact hne hflat

/-! ### C6: the section-header pattern -/

/-- C6 counterexample: the spec's case-insensitive, optional-label pattern
accepts both `"Article 1: Test"` (mixed-case label, listed by the spec) and
`"1.2 Definitions"` (no label), but `extract_section_info` rejects both: the
code's label alternation `Section|SECTION|Art\.|ARTICLE` is case-sensitive
and mandatory. -/
theorem section_header_counterexample :
    sectionHeaderPerSpec (pyOf "Article 1: Test") = true ∧
    extractSectionInfo (pyOf "Article 1: Test") = none ∧
    sectionHeaderPerSpec (pyOf "1.2 Definitions") = true ∧
    extractSectionInfo (pyOf "1.2 Definitions") = none := by decide

theorem dd_not_sp (c : Nat) (h : isDigitDotB c = true) : isSpaceB c = false := by
  simp [isDigitDotB, isSpaceB] at h ⊢
  omega

theorem sp_not_dd (c : Nat) (h : isSpaceB c = true) : isDigitDotB c = false := by
  simp [isDigitDotB, isSpaceB] at h ⊢
  omega

theorem dropWhile_cons_neg {α : Type _} (p : α → Bool) (a : α) (l : List α)
    (h : p a = false) : (a :: l).dropWhile p = a :: l := by
  simp [List.dropWhile_cons, h]

theorem mem_dropWhileP {α : Type _} (p : α → Bool) (l : List α) (x : α)
    (h : x ∈ l.dropWhile p) : x ∈ l :=
  (List.dropWhile_sublist p).mem h

theorem mem_dropSep (l : PyStr) (x : Nat) (h : x ∈ dropSep l) : x ∈ l := by
  cases l with
  | nil => simpa [dropSep] using h
  | cons c t =>
    by_cases hc : c = 58 ∨ c = 45
    · simp only [dropSep, if_pos hc] at h
      exact List.mem_cons_of_mem c h
    · simpa [dropSep, hc] using h

theorem dropSep_decomp (l : PyStr) :
    ∃ sep, (sep = ([] : PyStr) ∨ sep = [58] ∨ sep = [45]) ∧ l = sep ++ dropSep l := by
  cases l with
  | nil => exact ⟨[], Or.inl rfl, rfl⟩
  | cons c t =>
    by_cases hc : c = 58 ∨ c = 45
    · refine ⟨[c], ?_, by simp [dropSep, hc]⟩
      rcases hc with hc | hc <;> subst hc <;> simp
    · exact ⟨[], Or.inl rfl, by simp [dropSep, hc]⟩

theorem pyOf_Section_eq : pyOf "Section" = [83, 101, 99, 116, 105, 111, 110] := by decide

theorem pyOf_SECTION_eq : pyOf "SECTION" = [83, 69, 67, 84, 73, 79, 78] := by decide

theorem pyOf_Art_eq : pyOf "Art." = [65, 114, 116, 46] := by decide

theorem pyOf_ARTICLE_eq : pyOf "ARTICLE" = [65, 82, 84, 73, 67, 76, 69] := by decide

theorem stripLabel_append (lab : PyStr) (hlab : lab ∈ headerLabels) (R : PyStr) :
    stripLabel (lab ++ R) = some R := by
  have hpre : ∀ l2 : PyStr, l2.isPrefixOf (l2 ++ R) = true := fun l2 => by
    rw [List.isPrefixOf_iff_prefix]
    exact List.prefix_append l2 R
  simp only [headerLabels, List.mem_cons, List.not_mem_nil, or_false] at hlab
  rcases hlab with h | h | h | h <;> subst h
  · have hd : (pyOf "Section" ++ R).drop 7 = R := by
      have := List.drop_left (pyOf "Section") R
      simpa [pyOf_Section_eq] using this
    simp only [stripLabel, hpre, if_true, hd]
  · have h1 : (pyOf "Section").isPrefixOf (pyOf "SECTION" ++ R) = false := by
      rw [pyOf_Section_eq, pyOf_SECTION_eq]
      simp [List.isPrefixOf]
    have hd : (pyOf "SECTION" ++ R).drop 7 = R := by
      have := List.drop_left (pyOf "SECTION") R
      simpa [pyOf_SECTION_eq] using this
    simp only [stripLabel, h1, Bool.false_eq_true, if_false, hpre, if_true, hd]
  · have h1 : (pyOf "Section").isPrefixOf (pyOf "Art." ++ R) = false := by
      rw [pyOf_Section_eq, pyOf_Art_eq]
      simp [List.isPrefixOf]
    have h2 : (pyOf "SECTION").isPrefixOf (pyOf "Art." ++ R) = false := by
      rw [pyOf_SECTION_eq, pyOf_Art_eq]
      simp [List.isPrefixOf]
    have hd : (pyOf "Art." ++ R).drop 4 = R := by
      have := List.drop_left (pyOf "Art.") R
      simpa [pyOf_Art_eq] using this
    simp only [stripLabel, h1, h2, Bool.false_eq_true, if_false, hpre, if_true, hd]
  · have h1 : (pyOf "Section").isPrefixOf (pyOf "ARTICLE" ++ R) = false := by
      rw [pyOf_Section_eq, pyOf_ARTICLE_eq]
      simp [List.isPrefixOf]
    have h2 : (pyOf "SECTION").isPrefixOf (pyOf "ARTICLE" ++ R) = false := by
      rw [pyOf_SECTION_eq, pyOf_ARTICLE_eq]
      simp [List.isPrefixOf]
    have h3 : (pyOf "Art.").isPrefixOf (pyOf "ARTICLE" ++ R) = false := by
      rw [pyOf_Art_eq, pyOf_ARTICLE_eq]
      simp [List.isPrefixOf]
    have hd : (pyOf "ARTICLE" ++ R).drop 7 = R := by
      have := List.drop_left (pyOf "ARTICLE") R
      simpa [pyOf_ARTICLE_eq] using this
    simp only [stripLabel, h1, h2, h3, Bool.false_eq_true, if_false, hpre, if_true, hd]

theorem stripLabel_some (s r : PyStr) (h : stripLabel s = some r) :
    ∃ lab, lab ∈ headerLabels ∧ s = lab ++ r := by
  by_cases h1 : (pyOf "Section").isPrefixOf s = true
  · obtain ⟨t, ht⟩ := List.isPrefixOf_iff_prefix.mp h1
    simp only [stripLabel, h1, if_true, Option.some.injEq] at h
    have hdr : s.drop 7 = t := by
      rw [← ht]
      have := List.drop_left (pyOf "Section") t
      simpa [pyOf_Section_eq] using this
    exact ⟨pyOf "Section", by simp [headerLabels], by rw [← ht, ← h, hdr]⟩
  · by_cases h2 : (pyOf "SECTION").isPrefixOf s = true
    · obtain ⟨t, ht⟩ := List.isPrefixOf_iff_prefix.mp h2
      simp only [stripLabel, h1, h2, Bool.false_eq_true, if_false, if_true,
        Option.some.injEq] at h
      have hdr : s.drop 7 = t := by
        rw [← ht]
        have := List.drop_left (pyOf "SECTION") t
        simpa [pyOf_SECTION_eq] using this
      exact ⟨pyOf "SECTION", by simp [headerLabels], by rw [← ht, ← h, hdr]⟩
    · by_cases h3 : (pyOf "Art.").isPrefixOf s = true
      · obtain ⟨t, ht⟩ := List.isPrefixOf_iff_prefix.mp h3
        simp only [stripLabel, h1, h2, h3, Bool.false_eq_true, if_false, if_true,
          Option.some.injEq] at h
        have hdr : s.drop 4 = t := by
          rw [← ht]
          have := List.drop_left (pyOf "Art.") t
          simpa [pyOf_Art_eq] using this
        exact ⟨pyOf "Art.", by simp [headerLabels], by rw [← ht, ← h, hdr]⟩
      · by_cases h4 : (pyOf "ARTICLE").isPrefixOf s = true
        · obtain ⟨t, ht⟩ := List.isPrefixOf_iff_prefix.mp h4
          simp only [stripLabel, h1, h2, h3, h4, Bool.false_eq_true, if_false, if_true,
            Option.some.injEq] at h
          have hdr : s.drop 7 = t := by
            rw [← ht]
            have := List.drop_left (pyOf "ARTICLE") t
            simpa [pyOf_ARTICLE_eq] using this
          exact ⟨pyOf "ARTICLE", by simp [headerLabels], by rw [← ht, ← h, hdr]⟩
        · simp [stripLabel, h1, h2, h3, h4] at h

theorem matchAfterLabel_eq (r : PyStr) :
    matchAfterLabel r =
      (if (r.dropWhile isSpaceB).takeWhile isDigitDotB = [] then none
       else if 10 ∈ ((dropSep (((r.dropWhile isSpaceB).dropWhile isDigitDotB).dropWhile
           isSpaceB)).dropWhile isSpaceB) then none
       else some ((r.dropWhile isSpaceB).takeWhile isDigitDotB,
         ((dropSep (((r.dropWhile isSpaceB).dropWhile isDigitDotB).dropWhile
           isSpaceB)).dropWhile isSpaceB))) := rfl

theorem tail_no_newline (w2 sep w3 title : PyStr)
    (hw2 : ∀ c ∈ w2, isSpaceB c = true)
    (hsep : sep = ([] : PyStr) ∨ sep = [58] ∨ sep = [45])
    (hw3 : ∀ c ∈ w3, isSpaceB c = true)
    (htit : 10 ∉ title) :
    10 ∉ ((dropSep (((w2 ++ (sep ++ (w3 ++ title))).dropWhile isDigitDotB).dropWhile
      isSpaceB)).dropWhile isSpaceB) := by
  have hW3 : (w3 ++ title).dropWhile isSpaceB = title.dropWhile isSpaceB :=
    dropWhile_append_all isSpaceB w3 title hw3
  have hmono2 : ∀ x : Nat, x ∈ title.dropWhile isSpaceB → x ∈ title :=
    fun x hx => mem_dropWhileP _ _ _ hx
  have hfin : ∀ x : Nat,
      x ∈ ((dropSep (title.dropWhile isSpaceB)).dropWhile isSpaceB) → x ∈ title := by
    intro x hx
    exact mem_dropWhileP _ _ _ (mem_dropSep _ _ (mem_dropWhileP _ _ _ hx))
  intro hmem
  cases w2 with
  | cons c w2' =>
    have hc : isDigitDotB c = false := sp_not_dd c (hw2 c (by simp))
    rw [List.cons_append, dropWhile_cons_neg isDigitDotB c _ hc, ← List.cons_append,
      dropWhile_append_all isSpaceB (c :: w2') _ hw2] at hmem
    rcases hsep with hsep | hsep | hsep <;> subst hsep
    · rw [List.nil_append, hW3] at hmem
      exact htit (hfin 10 hmem)
    · rw [show ([58] ++ (w3 ++ title) : PyStr) = 58 :: (w3 ++ title) from rfl,
        dropWhile_cons_neg isSpaceB 58 _ (by decide),
        show dropSep (58 :: (w3 ++ title)) = w3 ++ title from by simp [dropSep],
        hW3] at hmem
      exact htit (hmono2 10 hmem)
    · rw [show ([45] ++ (w3 ++ title) : PyStr) = 45 :: (w3 ++ title) from rfl,
        dropWhile_cons_neg isSpaceB 45 _ (by decide),
        show dropSep (45 :: (w3 ++ title)) = w3 ++ title from by simp [dropSep],
        hW3] at hmem
      exact htit (hmono2 10 hmem)
  | nil =>
    rw [List.nil_append] at hmem
    rcases hsep with hsep | hsep | hsep <;> subst hsep
    · rw [List.nil_append] at hmem
      cases w3 with
      | cons c w3' =>
        have hc : isDigitDotB c = false := sp_not_dd c (hw3 c (by simp))
        rw [List.cons_append, dropWhile_cons_neg isDigitDotB c _ hc, ← List.cons_append,
          dropWhile_append_all isSpaceB (c :: w3') _ hw3] at hmem
        exact htit (hfin 10 hmem)
      | nil =>
        rw [List.nil_append] at hmem
        exact htit (mem_dropWhileP _ _ _
          (mem_dropWhileP _ _ _ (mem_dropSep _ _ (mem_dropWhileP _ _ _ hmem))))
    · rw [show ([58] ++ (w3 ++ title) : PyStr) = 58 :: (w3 ++ title) from rfl,
        dropWhile_cons_neg isDigitDotB 58 _ (by decide),
        dropWhile_cons_neg isSpaceB 58 _ (by decide),
        show dropSep (58 :: (w3 ++ title)) = w3 ++ title from by simp [dropSep],
        hW3] at hmem
      exact htit (hmono2 10 hmem)
    · rw [show ([45] ++ (w3 ++ title) : PyStr) = 45 :: (w3 ++ title) from rfl,
        dropWhile_cons_neg isDigitDotB 45 _ (by decide),
        dropWhile_cons_neg isSpaceB 45 _ (by decide),
        show dropSep (45 :: (w3 ++ title)) = w3 ++ title from by simp [dropSep],
        hW3] at hmem
      exact htit (hmono2 10 hmem)

/-- C6 (amended): `extract_section_info` recognizes a line as a section
header exactly when its stripped text decomposes as one of the mandatory
case-sensitive labels `Section`, `SECTION`, `Art.`, `ARTICLE`, followed by
optional whitespace, a nonempty run of digits/dots, optional whitespace, an
optional `:` or `-`, optional whitespace, and a newline-free title remainder
(possibly empty) — the label is neither optional nor case-insensitive, and
only those four exact spellings are accepted. -/
theorem section_header_iff (t : PyStr) :
    (extractSectionInfo t).isSome = true ↔ HeaderDecomp t := by
  constructor
  · intro h
    cases hsl : stripLabel (pyStrip t) with
    | none => simp [extractSectionInfo, hsl] at h
    | some r =>
      cases hml : matchAfterLabel r with
      | none => simp [extractSectionInfo, hsl, hml] at h
      | some pr =>
        obtain ⟨lab, hlab, hs⟩ := stripLabel_some _ _ hsl
        rw [matchAfterLabel_eq] at hml
        by_cases h1 : (r.dropWhile isSpaceB).takeWhile isDigitDotB = []
        · rw [if_pos h1] at hml
          exact absurd hml (by simp)
        rw [if_neg h1] at hml
        by_cases h2 : 10 ∈ ((dropSep (((r.dropWhile isSpaceB).dropWhile
            isDigitDotB).dropWhile isSpaceB)).dropWhile isSpaceB)
        · rw [if_pos h2] at hml
          exact absurd hml (by simp)
        obtain ⟨sep, hsepok, hsepeq⟩ :=
          dropSep_decomp (((r.dropWhile isSpaceB).dropWhile isDigitDotB).dropWhile isSpaceB)
        refine ⟨lab, r.takeWhile isSpaceB,
          (r.dropWhile isSpaceB).takeWhile isDigitDotB,
          ((r.dropWhile isSpaceB).dropWhile isDigitDotB).takeWhile isSpaceB,
          sep,
          (dropSep (((r.dropWhile isSpaceB).dropWhile isDigitDotB).dropWhile
            isSpaceB)).takeWhile isSpaceB,
          (dropSep (((r.dropWhile isSpaceB).dropWhile isDigitDotB).dropWhile
            isSpaceB)).dropWhile isSpaceB,
          ?_, hlab, fun c hc => List.mem_takeWhile_imp hc, h1,
          fun c hc => List.mem_takeWhile_imp hc, fun c hc => List.mem_takeWhile_imp hc,
          hsepok, fun c hc => List.mem_takeWhile_imp hc, h2⟩
        rw [hs]
        congr 1
        symm
        rw [List.takeWhile_append_dropWhile isSpaceB
          (dropSep (((r.dropWhile isSpaceB).dropWhile isDigitDotB).dropWhile isSpaceB))]
        rw [← hsepeq]
        rw [List.takeWhile_append_dropWhile isSpaceB
          ((r.dropWhile isSpaceB).dropWhile isDigitDotB)]
        rw [List.takeWhile_append_dropWhile isDigitDotB (r.dropWhile isSpaceB)]
        rw [List.takeWhile_append_dropWhile isSpaceB r]
  · rintro ⟨lab, w1, num, w2, sep, w3, title, hsplit, hlab, hw1, hnum, hnumdd, hw2,
      hsepok, hw3, htit⟩
    have hR : stripLabel (pyStrip t) =
        some (w1 ++ (num ++ (w2 ++ (sep ++ (w3 ++ title))))) := by
      rw [hsplit]
      exact stripLabel_append lab hlab _
    cases num with
    | nil => exact absurd rfl hnum
    | cons n0 num' =>
    have hn0 : isDigitDotB n0 = true := hnumdd n0 (by simp)
    have e1 : (w1 ++ ((n0 :: num') ++ (w2 ++ (sep ++ (w3 ++ title))))).dropWhile isSpaceB =
        (n0 :: num') ++ (w2 ++ (sep ++ (w3 ++ title))) := by
      rw [dropWhile_append_all isSpaceB w1 _ hw1]
      simp only [List.cons_append]
      exact dropWhile_cons_neg isSpaceB n0 _ (dd_not_sp n0 hn0)
    have e2 : ((n0 :: num') ++ (w2 ++ (sep ++ (w3 ++ title)))).takeWhile isDigitDotB ≠ [] := by
      simp [List.takeWhile_cons, hn0]
    have e3 : ((n0 :: num') ++ (w2 ++ (sep ++ (w3 ++ title)))).dropWhile isDigitDotB =
        (w2 ++ (sep ++ (w3 ++ title))).dropWhile isDigitDotB :=
      dropWhile_append_all isDigitDotB (n0 :: num') _ hnumdd
    have c1 : ¬(((w1 ++ ((n0 :: num') ++ (w2 ++ (sep ++ (w3 ++ title))))).dropWhile
        isSpaceB).takeWhile isDigitDotB = []) := by
      rw [e1]
      exact e2
    have c2 : ¬(10 ∈ ((dropSep ((((w1 ++ ((n0 :: num') ++ (w2 ++ (sep ++ (w3 ++
        title))))).dropWhile isSpaceB).dropWhile isDigitDotB).dropWhile
        isSpaceB)).dropWhile isSpaceB)) := by
      rw [e1, e3]
      exact tail_no_newline w2 sep w3 title hw2 hsepok hw3 htit
    simp only [extractSectionInfo, hR, matchAfterLabel_eq, if_neg c1, if_neg c2,
      Option.isSome_some]
